import Mathlib

/-!
The package prtree: a hybrid point / rectangle index.

A shallow embedding of `src/prtree.go` (package `prtree` of tidwall/prtree).

* Coordinates.  The source uses `float64` and only ever compares coordinates
  (`==`, `<`, `>`) and copies them; it performs no arithmetic.  Coordinates are
  therefore drawn from an arbitrary linearly ordered carrier `α` with a zero
  (the Go zero value).  Every non-NaN `float64` comparison agrees with such an
  order; NaN is outside the model.
* Payloads.  `interface{}` payloads are values of a type `δ` with decidable
  equality.
* Mutation.  Methods on `*PRTree` become functions returning the new state.
* Visitors.  A Go visitor is a closure that may mutate captured variables, so a
  visitor is a function from its captured environment `σ` to a continue flag and
  a new environment.
* Counts.  `Len` is a natural number; a Go `int` cannot overflow on the number
  of items held in memory.
* The two sub-indexes (`github.com/tidwall/ptree`, `github.com/tidwall/rtree`)
  are external packages.  They are modelled from the capability contract of the
  specification as sequences of stored items in iteration order.
* Children.  A dynamic value (`interface{}`) used as a parent handle or as the
  `Data` of a child descriptor is a `Handle`; a `panic` is the `error` case of
  `Except`.  The internal node structure of a sub-index is a finite forest
  given by a layout parameter (`Shape`); a sub-index appends its descriptors
  to the buffer it is handed and refuses a handle that is not one of its own
  nodes.  The slice `reuse[:0]` is the empty sequence; the sharing of its
  backing array with the caller's buffer is not part of the model.
-/

namespace prtree

/-- Point is the Go type `[2]float64`: component 0 is `.1`, component 1 is `.2`. -/
abbrev Point (α : Type) := α × α

/-- Item is a stored triple (min corner, max corner, payload). -/
abbrev Item (α δ : Type) := Point α × Point α × δ

/-- Visitor is the Go callback `func(min, max [2]float64, data interface{}) bool`
over a captured environment `σ`. -/
abbrev Visitor (α δ σ : Type) := Point α → Point α → δ → σ → Bool × σ

/-- PointVisitor is the Go callback `func(point [2]float64, data interface{}) bool`
over a captured environment `σ`. -/
abbrev PointVisitor (α δ σ : Type) := Point α → δ → σ → Bool × σ

/-- Modelled from the spec: the iteration protocol of the external sub-indexes
("visits ... items; early-stop when visit signals stop").  The callback is run
on the elements in order, threading its environment, and the iteration ends
right after the first call that returns `false`. -/
def iterate {β σ : Type} (f : β → σ → Bool × σ) : List β → σ → σ
  | [], s => s
  | x :: xs, s => if (f x s).1 then iterate f xs (f x s).2 else (f x s).2

/-- Modelled from the spec: "true iff point lies within" a box with corners
`min` and `max` (used for the domain test and for the ranged point search). -/
def pointInBox {α : Type} [LinearOrder α] (min max point : Point α) : Bool :=
  decide (min.1 ≤ point.1) && decide (point.1 ≤ max.1) &&
    decide (min.2 ≤ point.2) && decide (point.2 ≤ max.2)

/-- Modelled from the spec: the box `[imin, imax]` intersects the query box
`[qmin, qmax]` (on each axis neither box lies strictly beyond the other). -/
def intersects {α : Type} [LinearOrder α] (qmin qmax imin imax : Point α) : Bool :=
  decide (imin.1 ≤ qmax.1) && decide (qmin.1 ≤ imax.1) &&
    decide (imin.2 ≤ qmax.2) && decide (qmin.2 ≤ imax.2)

/-- Modelled from the spec: the external point index `ptree.PTree`
(github.com/tidwall/ptree, an imported package): a fixed domain `min`/`max`
and the stored (point, payload) pairs in iteration order. -/
structure PTree (α δ : Type) where
  min : Point α
  max : Point α
  items : List (Point α × δ)

/-- Modelled from the spec: the external rectangle index `rtree.RTree`
(github.com/tidwall/rtree, an imported package): the stored
(min, max, payload) triples in iteration order. -/
structure RTree (α δ : Type) where
  items : List (Item α δ)

namespace PTree

variable {α δ σ : Type}

/-- Modelled from the spec: `ptree.New(min, max)`, an empty point index over the
domain. -/
def New (min max : Point α) : PTree α δ := ⟨min, max, []⟩

/-- Modelled from the spec: `inBounds(point)`, "true iff point lies within the
configured domain". -/
def InBounds [LinearOrder α] (tr : PTree α δ) (point : Point α) : Bool :=
  pointInBox tr.min tr.max point

/-- Modelled from the spec: `insert`, "adds item; no failure path exposed". -/
def Insert (tr : PTree α δ) (point : Point α) (data : δ) : PTree α δ :=
  { tr with items := tr.items ++ [(point, data)] }

/-- Modelled from the spec: `delete`, "removes a matching item if present;
no-op otherwise" (one matching item, matched by equality). -/
def Delete [DecidableEq α] [DecidableEq δ] (tr : PTree α δ) (point : Point α) (data : δ) :
    PTree α δ :=
  { tr with items := tr.items.erase (point, data) }

/-- Modelled from the spec: `search`, "visits intersecting items; early-stop
when visit signals stop". -/
def Search [LinearOrder α] (tr : PTree α δ) (min max : Point α)
    (iter : PointVisitor α δ σ) (s : σ) : σ :=
  iterate (fun e => iter e.1 e.2) (tr.items.filter (fun e => pointInBox min max e.1)) s

/-- Modelled from the spec: `scan`, "visits all items; early-stop when visit
signals stop". -/
def Scan (tr : PTree α δ) (iter : PointVisitor α δ σ) (s : σ) : σ :=
  iterate (fun e => iter e.1 e.2) tr.items s

/-- Modelled from the spec: `len`, "current item count". -/
def Len (tr : PTree α δ) : Nat := tr.items.length

/-- Modelled from the spec: `minBounds`, "minimum bounding box of all stored
items; undefined/empty if len()==0" (the zero box is returned when empty). -/
def MinBounds [LinearOrder α] [Zero α] (tr : PTree α δ) : Point α × Point α :=
  match tr.items with
  | [] => ((0, 0), (0, 0))
  | e :: es =>
    es.foldl
      (fun b x => ((Min.min b.1.1 x.1.1, Min.min b.1.2 x.1.2),
                   (Max.max b.2.1 x.1.1, Max.max b.2.2 x.1.2)))
      (e.1, e.1)

end PTree

namespace RTree

variable {α δ σ : Type}

/-- Modelled from the spec: `insert`, "adds item; no failure path exposed". -/
def Insert (tr : RTree α δ) (min max : Point α) (data : δ) : RTree α δ :=
  { tr with items := tr.items ++ [(min, max, data)] }

/-- Modelled from the spec: `delete`, "removes a matching item if present;
no-op otherwise" (one matching item, matched by equality of min, max, data). -/
def Delete [DecidableEq α] [DecidableEq δ] (tr : RTree α δ) (min max : Point α) (data : δ) :
    RTree α δ :=
  { tr with items := tr.items.erase (min, max, data) }

/-- Modelled from the spec: `search`, "visits intersecting items; early-stop
when visit signals stop". -/
def Search [LinearOrder α] (tr : RTree α δ) (min max : Point α)
    (iter : Visitor α δ σ) (s : σ) : σ :=
  iterate (fun e => iter e.1 e.2.1 e.2.2)
    (tr.items.filter (fun e => intersects min max e.1 e.2.1)) s

/-- Modelled from the spec: `scan`, "visits all items; early-stop when visit
signals stop". -/
def Scan (tr : RTree α δ) (iter : Visitor α δ σ) (s : σ) : σ :=
  iterate (fun e => iter e.1 e.2.1 e.2.2) tr.items s

/-- Modelled from the spec: `len`, "current item count". -/
def Len (tr : RTree α δ) : Nat := tr.items.length

/-- Modelled from the spec: `bounds`, "minimum bounding box of all stored
items; undefined/empty if len()==0" (the zero box is returned when empty). -/
def Bounds [LinearOrder α] [Zero α] (tr : RTree α δ) : Point α × Point α :=
  match tr.items with
  | [] => ((0, 0), (0, 0))
  | e :: es =>
    es.foldl
      (fun b x => ((Min.min b.1.1 x.1.1, Min.min b.1.2 x.1.2),
                   (Max.max b.2.1 x.2.1.1, Max.max b.2.2 x.2.1.2)))
      (e.1, e.2.1)

end RTree

/-- PRTree is a tree for storing points and rects (`type PRTree struct`). -/
structure PRTree (α δ : Type) where
  ptree : PTree α δ
  rtree : RTree α δ

/-- The function `expand` of the source: four guarded component assignments. -/
def expand {α : Type} [LinearOrder α] (amin amax bmin bmax : Point α) : Point α × Point α :=
  let amin : Point α := if bmin.1 < amin.1 then (bmin.1, amin.2) else amin
  let amax : Point α := if bmax.1 > amax.1 then (bmax.1, amax.2) else amax
  let amin : Point α := if bmin.2 < amin.2 then (amin.1, bmin.2) else amin
  let amax : Point α := if bmax.2 > amax.2 then (amax.1, bmax.2) else amax
  (amin, amax)

namespace PRTree

variable {α δ σ : Type}

/-- New returns a new PRTree (`ptree.New(min, max)` and a zero-value `RTree`). -/
def New (min max : Point α) : PRTree α δ :=
  { ptree := PTree.New min max, rtree := ⟨[]⟩ }

/-- Insert an item into the structure. -/
def Insert [LinearOrder α] (tr : PRTree α δ) (min max : Point α) (data : δ) : PRTree α δ :=
  if decide (min = max) && tr.ptree.InBounds min then
    { tr with ptree := tr.ptree.Insert min data }
  else
    { tr with rtree := tr.rtree.Insert min max data }

/-- Delete an item from the structure. -/
def Delete [LinearOrder α] [DecidableEq δ] (tr : PRTree α δ) (min max : Point α) (data : δ) :
    PRTree α δ :=
  if decide (min = max) && tr.ptree.InBounds min then
    { tr with ptree := tr.ptree.Delete min data }
  else
    { tr with rtree := tr.rtree.Delete min max data }

/-- Replace an item in the structure: a Delete followed by an Insert. -/
def Replace [LinearOrder α] [DecidableEq δ] (tr : PRTree α δ)
    (oldMin oldMax : Point α) (oldData : δ)
    (newMin newMax : Point α) (newData : δ) : PRTree α δ :=
  (tr.Delete oldMin oldMax oldData).Insert newMin newMax newData

/-- The closure handed to the point sub-index by Search and Scan.  Its captured
environment is the local `quit` flag together with the environment of `iter`. -/
def pointAdapter (iter : Visitor α δ σ) : PointVisitor α δ (Bool × σ) :=
  fun point data st =>
    let r := iter point point data st.2
    if !r.1 then (false, (true, r.2)) else (true, (st.1, r.2))

/-- Search the structure for items that intersects the rect param. -/
def Search [LinearOrder α] (tr : PRTree α δ) (min max : Point α)
    (iter : Visitor α δ σ) (s : σ) : σ :=
  let r := tr.ptree.Search min max (pointAdapter iter) (false, s)
  if !r.1 then tr.rtree.Search min max iter r.2 else r.2

/-- Scan iterates through all data in tree in no specified order. -/
def Scan (tr : PRTree α δ) (iter : Visitor α δ σ) (s : σ) : σ :=
  let r := tr.ptree.Scan (pointAdapter iter) (false, s)
  if !r.1 then tr.rtree.Scan iter r.2 else r.2

/-- Len returns the number of items in tree. -/
def Len (tr : PRTree α δ) : Nat := tr.ptree.Len + tr.rtree.Len

/-- Bounds returns the minimum bounding box (the named results start as the
zero value and are returned unassigned when both sub-indexes are empty). -/
def Bounds [LinearOrder α] [Zero α] (tr : PRTree α δ) : Point α × Point α :=
  if tr.ptree.Len > 0 then
    let a := tr.ptree.MinBounds
    if tr.rtree.Len > 0 then
      let b := tr.rtree.Bounds
      expand a.1 a.2 b.1 b.2
    else
      (a.1, a.2)
  else if tr.rtree.Len > 0 then
    tr.rtree.Bounds
  else
    ((0, 0), (0, 0))

end PRTree

/-! ## Observation of visitor calls -/

/-- The visitor `iter` instrumented to record, next to its own environment, the
sequence of triples it has been called on. -/
def traced {α δ σ : Type} (iter : Visitor α δ σ) : Visitor α δ (σ × List (Item α δ)) :=
  fun mn mx d st => ((iter mn mx d st.1).1, ((iter mn mx d st.1).2, st.2 ++ [(mn, mx, d)]))

/-- The triples on which `Search` calls the visitor, in call order. -/
def searchCalls {α δ σ : Type} [LinearOrder α] (tr : PRTree α δ) (min max : Point α)
    (iter : Visitor α δ σ) (s : σ) : List (Item α δ) :=
  (tr.Search min max (traced iter) (s, [])).2

/-- The triples on which `Scan` calls the visitor, in call order. -/
def scanCalls {α δ σ : Type} (tr : PRTree α δ) (iter : Visitor α δ σ) (s : σ) :
    List (Item α δ) :=
  (tr.Scan (traced iter) (s, [])).2

/-- The triple under which a pair of the point sub-index is reported: the
degenerate box of its point. -/
def asItem {α δ : Type} (e : Point α × δ) : Item α δ := (e.1, e.1, e.2)

/-- The stored items of the index as triples: the point sub-index's pairs as
degenerate boxes, followed by the rect sub-index's triples. -/
def stored {α δ : Type} (tr : PRTree α δ) : List (Item α δ) :=
  tr.ptree.items.map asItem ++ tr.rtree.items

/-- A visitor as a callback on triples. -/
def onItem {α δ σ : Type} (iter : Visitor α δ σ) : Item α δ → σ → Bool × σ :=
  fun e => iter e.1 e.2.1 e.2.2

/-- Whether the callback returns `false` at some call when run over the list
under the early-stop protocol. -/
def stops {β σ : Type} (f : β → σ → Bool × σ) : List β → σ → Bool
  | [], _ => false
  | x :: xs, s => if (f x s).1 then stops f xs (f x s).2 else true

/-- The elements on which the callback is called when run over the list under
the early-stop protocol: everything up to and including the first stop. -/
def calls {β σ : Type} (f : β → σ → Bool × σ) : List β → σ → List β
  | [], _ => []
  | x :: xs, s => x :: (if (f x s).1 then calls f xs (f x s).2 else [])

/-- The geometric test of an item triple against a query box. -/
def hit {α δ : Type} [LinearOrder α] (min max : Point α) (e : Item α δ) : Bool :=
  intersects min max e.1 e.2.1

/-- The query box `[qmin, qmax]` contains the box with corners `min` and `max`:
both corners lie in the query box.  For a well-formed box (`min ≤ max`) this is
the usual containment `qmin ≤ min` and `max ≤ qmax`. -/
def boxContains {α : Type} [LinearOrder α] (qmin qmax min max : Point α) : Bool :=
  pointInBox qmin qmax min && pointInBox qmin qmax max

/-- The box `b` is the minimum bounding box of the items `l`: every item's box
lies inside `b` (its min corner is not below `b`'s, its max corner not above),
and each of the four extents of `b` is attained by some item. -/
def isMinBoundingBox {α δ : Type} [LinearOrder α] (b : Point α × Point α)
    (l : List (Item α δ)) : Prop :=
  (∀ e ∈ l, b.1.1 ≤ e.1.1 ∧ b.1.2 ≤ e.1.2 ∧ e.2.1.1 ≤ b.2.1 ∧ e.2.1.2 ≤ b.2.2) ∧
    (∃ e ∈ l, e.1.1 = b.1.1) ∧ (∃ e ∈ l, e.1.2 = b.1.2) ∧
    (∃ e ∈ l, e.2.1.1 = b.2.1) ∧ (∃ e ∈ l, e.2.1.2 = b.2.2)

/-! ## Scenario values (from `src/prtree_test.go` and the example scenarios) -/

/-- The test helper `newWorld`: `New([2]float64{-180, -90}, [2]float64{180, 90})`,
here over integer coordinates and string payloads. -/
def newWorld : PRTree ℤ String := PRTree.New (-180, -90) (180, 90)

/-- A visitor that always continues (and captures nothing). -/
def keepGoing {α δ : Type} : Visitor α δ Unit := fun _ _ _ s => (true, s)

/-- A visitor that returns stop on every call (and captures nothing). -/
def stopAtOnce {α δ : Type} : Visitor α δ Unit := fun _ _ _ s => (false, s)

/-- Scenario 1: point (1,1)-(1,1) with payload "A" inserted into the empty world. -/
def world1 : PRTree ℤ String := newWorld.Insert (1, 1) (1, 1) "A"

/-- Scenario 2: rect (10,10)-(20,20) with payload "B" inserted next. -/
def world2 : PRTree ℤ String := world1.Insert (10, 10) (20, 20) "B"

/-- Scenario 3: point (1,1)-(1,1) "A" deleted again. -/
def world3 : PRTree ℤ String := world2.Delete (1, 1) (1, 1) "A"

/-! ## Operation sequences -/

/-- A mutating call on the index, with its arguments. -/
inductive Op (α δ : Type) : Type
  | insert (min max : Point α) (data : δ)
  | delete (min max : Point α) (data : δ)
  | replace (oldMin oldMax : Point α) (oldData : δ) (newMin newMax : Point α) (newData : δ)

/-- The state after one mutating call. -/
def PRTree.step {α δ : Type} [LinearOrder α] [DecidableEq δ] (tr : PRTree α δ) :
    Op α δ → PRTree α δ
  | .insert min max data => tr.Insert min max data
  | .delete min max data => tr.Delete min max data
  | .replace oldMin oldMax oldData newMin newMax newData =>
    tr.Replace oldMin oldMax oldData newMin newMax newData

/-- The state after a sequence of mutating calls, in order. -/
def PRTree.run {α δ : Type} [LinearOrder α] [DecidableEq δ] (tr : PRTree α δ)
    (ops : List (Op α δ)) : PRTree α δ :=
  ops.foldl PRTree.step tr

/-- The items "inserted and not deleted" by a sequence of calls, starting from
the items `l`: an insert adds its triple, a delete removes one equal triple if
there is one, a replace does both. -/
def live {α δ : Type} [DecidableEq α] [DecidableEq δ] (l : List (Item α δ)) :
    List (Op α δ) → List (Item α δ)
  | [] => l
  | .insert min max data :: ops => live (l ++ [(min, max, data)]) ops
  | .delete min max data :: ops => live (l.erase (min, max, data)) ops
  | .replace oldMin oldMax oldData newMin newMax newData :: ops =>
    live (l.erase (oldMin, oldMax, oldData) ++ [(newMin, newMax, newData)]) ops

/-- The routing invariant: every item of the point sub-index lies within the
domain (it is degenerate by its type, a single point), and no item of the rect
sub-index is a degenerate box whose point lies within the domain. -/
def routed {α δ : Type} [LinearOrder α] (tr : PRTree α δ) : Prop :=
  (∀ e ∈ tr.ptree.items, tr.ptree.InBounds e.1 = true) ∧
    ∀ e ∈ tr.rtree.items, ¬ (e.1 = e.2.1 ∧ tr.ptree.InBounds e.1 = true)

/-- The box with corners `min`, `max` lies inside the box `b`: its min corner is
not below `b`'s and its max corner is not above `b`'s. -/
def boxWithin {α : Type} [LinearOrder α] (b : Point α × Point α) (min max : Point α) : Prop :=
  b.1.1 ≤ min.1 ∧ b.1.2 ≤ min.2 ∧ max.1 ≤ b.2.1 ∧ max.2 ≤ b.2.2

/-! ## Hierarchical traversal (Children) -/

/-- Modelled from the spec: the internal node structure of a sub-index, "a
finite tree whose leaves are its stored items".  A forest is a sequence of
sibling nodes: a leaf item, or an internal node with its box and its own
children, each followed by the next sibling. -/
inductive Forest (α δ : Type) : Type
  | nil : Forest α δ
  | leaf (min max : Point α) (data : δ) (next : Forest α δ) : Forest α δ
  | inner (min max : Point α) (kids : Forest α δ) (next : Forest α δ) : Forest α δ
  deriving DecidableEq

/-- A dynamic value (`interface{}`) as it occurs as a parent handle or in the
`Data` field of a child descriptor: untyped nil, an item payload, an internal
node of the point sub-index or of the rect sub-index (identified with the
children it holds), or one of these wrapped in the local types `pChildNode` or
`rChildNode` of the source. -/
inductive Handle (α δ : Type) : Type
  | nil : Handle α δ
  | payload (data : δ) : Handle α δ
  | pnode (kids : Forest α δ) : Handle α δ
  | rnode (kids : Forest α δ) : Handle α δ
  | pChildNode (data : Handle α δ) : Handle α δ
  | rChildNode (data : Handle α δ) : Handle α δ
  deriving DecidableEq

/-- The type `child.Child` of github.com/tidwall/geoindex/child. -/
structure Child (α δ : Type) where
  Min : Point α
  Max : Point α
  Data : Handle α δ
  Item : Bool
  deriving DecidableEq

/-- The fatal outcomes of `Children`: the `panic("invalid node type")` of the
source, and the failure of a sub-index that is handed a handle it does not own
("handles are not interchangeable"), which this layer lets through. -/
inductive Failure : Type
  | invalidNodeType
  | foreignHandle
  deriving DecidableEq

/-- Modelled from the spec: the layout of a sub-index, the forest in which it
holds a given sequence of stored items.  The source does not depend on it. -/
abbrev Shape (α δ : Type) := List (Item α δ) → Forest α δ

/-- The immediate child descriptors of a forest's top-level nodes; `mk` makes
the handle of an internal node from the children it holds. -/
def Forest.children {α δ : Type} (mk : Forest α δ → Handle α δ) :
    Forest α δ → List (Child α δ)
  | .nil => []
  | .leaf min max data next => ⟨min, max, .payload data, true⟩ :: next.children mk
  | .inner min max kids next => ⟨min, max, mk kids, false⟩ :: next.children mk

/-- All leaf items of a forest, depth first. -/
def Forest.leaves {α δ : Type} : Forest α δ → List (Item α δ)
  | .nil => []
  | .leaf min max data next => (min, max, data) :: next.leaves
  | .inner _ _ kids next => kids.leaves ++ next.leaves

/-- The number of levels of internal nodes of a forest. -/
def Forest.depth {α δ : Type} : Forest α δ → Nat
  | .nil => 0
  | .leaf _ _ _ next => next.depth
  | .inner _ _ kids next => Nat.max (kids.depth + 1) next.depth

/-- Modelled from the spec: `children(parentHandleOrRootSentinel, reuseBuffer)`
of the point sub-index, "returns immediate children descriptors, each flagged
leaf-item or internal-node"; the descriptors are appended to the buffer ("the
operation may append into and return").  A handle that is not a node of this
sub-index is refused. -/
def PTree.Children {α δ : Type} (tr : PTree α δ) (shape : Shape α δ)
    (parent : Handle α δ) (reuse : List (Child α δ)) : Except Failure (List (Child α δ)) :=
  match parent with
  | .nil => .ok (reuse ++ (shape (tr.items.map asItem)).children .pnode)
  | .pnode kids => .ok (reuse ++ kids.children .pnode)
  | _ => .error .foreignHandle

/-- Modelled from the spec: `children(parentHandleOrRootSentinel, reuseBuffer)`
of the rect sub-index, as for the point sub-index. -/
def RTree.Children {α δ : Type} (tr : RTree α δ) (shape : Shape α δ)
    (parent : Handle α δ) (reuse : List (Child α δ)) : Except Failure (List (Child α δ)) :=
  match parent with
  | .nil => .ok (reuse ++ (shape tr.items).children .rnode)
  | .rnode kids => .ok (reuse ++ kids.children .rnode)
  | _ => .error .foreignHandle

/-- The loop `for i := mark; i < len(children); i++` of the source with body
`if !children[i].Item { children[i].Data = tag{children[i].Data} }`; the first
argument counts the iterations left, the second is `i`. -/
def wrapLoop {α δ : Type} (tag : Handle α δ → Handle α δ) :
    Nat → Nat → List (Child α δ) → List (Child α δ)
  | 0, _, children => children
  | n + 1, i, children =>
    match children.get? i with
    | none => children
    | some c =>
      if !c.Item then wrapLoop tag n (i + 1) (children.set i { c with Data := tag c.Data })
      else wrapLoop tag n (i + 1) children

/-- Children returns all children for parent node. If parent node is nil then
the root nodes should be returned.  The layouts of the two sub-indexes are
parameters. -/
def PRTree.Children {α δ : Type} (tr : PRTree α δ) (pshape rshape : Shape α δ)
    (parent : Handle α δ) (reuse : List (Child α δ)) : Except Failure (List (Child α δ)) :=
  let children := reuse.take 0
  match parent with
  | .nil =>
    match tr.ptree.Children pshape .nil children with
    | .error e => .error e
    | .ok children =>
      let children := wrapLoop .pChildNode (children.length - 0) 0 children
      let mark := children.length
      match tr.rtree.Children rshape .nil children with
      | .error e => .error e
      | .ok children => .ok (wrapLoop .rChildNode (children.length - mark) mark children)
  | .pChildNode data =>
    match tr.ptree.Children pshape data children with
    | .error e => .error e
    | .ok children => .ok (wrapLoop .pChildNode (children.length - 0) 0 children)
  | .rChildNode data =>
    match tr.rtree.Children rshape data children with
    | .error e => .error e
    | .ok children => .ok (wrapLoop .rChildNode (children.length - 0) 0 children)
  | _ => .error .invalidNodeType

/-- A descriptor with the provenance tag applied: an item descriptor is left
as it is, an internal-node descriptor keeps `Min`, `Max`, `Item` and has its
`Data` wrapped. -/
def retag {α δ : Type} (tag : Handle α δ → Handle α δ) (c : Child α δ) : Child α δ :=
  if c.Item then c else { c with Data := tag c.Data }

/-- The leaf descriptor of a stored item. -/
def leafChild {α δ : Type} (e : Item α δ) : Child α δ := ⟨e.1, e.2.1, .payload e.2.2, true⟩

/-- The ways a traversal can end without a result: a failure of `Children`, or
the recursion budget of the model running out. -/
inductive Halt : Type
  | failed (e : Failure)
  | outOfFuel
  deriving DecidableEq

/-- Run `f` on every element in order and concatenate the results; the first
failure ends the run. -/
def collect {β γ ε : Type} (f : β → Except ε (List γ)) : List β → Except ε (List γ)
  | [] => .ok []
  | x :: xs =>
    match f x with
    | .error e => .error e
    | .ok a =>
      match collect f xs with
      | .error e => .error e
      | .ok b => .ok (a ++ b)

/-- Modelled from the spec: the traversal protocol, "Children(rootSentinel)
followed by recursively calling Children on every returned internal-node
descriptor".  It returns the leaf descriptors visited, in order; `fuel` bounds
the recursion depth. -/
def traverse {α δ : Type} (tr : PRTree α δ) (pshape rshape : Shape α δ) :
    Nat → Handle α δ → Except Halt (List (Child α δ))
  | 0, _ => .error .outOfFuel
  | fuel + 1, parent =>
    match tr.Children pshape rshape parent [] with
    | .error e => .error (.failed e)
    | .ok children =>
      collect (fun c => if c.Item then .ok [c] else traverse tr pshape rshape fuel c.Data)
        children

/-- An example layout: all items are leaves directly under the root. -/
def flatShape {α δ : Type} : Shape α δ
  | [] => .nil
  | e :: es => .leaf e.1 e.2.1 e.2.2 (flatShape es)

/-- An example layout: one internal root node (carrying the box of the first
item) that holds the first item as a leaf and a second internal node with the
remaining items. -/
def nestedShape {α δ : Type} : Shape α δ
  | [] => .nil
  | e :: es =>
    .inner e.1 e.2.1 (.leaf e.1 e.2.1 e.2.2 (.inner e.1 e.2.1 (flatShape es) .nil)) .nil

/-! ## The early-stop protocol -/

section Protocol

variable {β γ σ : Type}

theorem iterate_append (f : β → σ → Bool × σ) (l₁ l₂ : List β) (s : σ) :
    iterate f (l₁ ++ l₂) s =
      if stops f l₁ s then iterate f l₁ s else iterate f l₂ (iterate f l₁ s) := by
  induction l₁ generalizing s with
  | nil => simp [iterate, stops]
  | cons x xs ih =>
    by_cases h : (f x s).1 = true
    · simp [iterate, stops, h, ih]
    · simp [iterate, stops, h]

theorem calls_append (f : β → σ → Bool × σ) (l₁ l₂ : List β) (s : σ) :
    calls f (l₁ ++ l₂) s =
      if stops f l₁ s then calls f l₁ s else calls f l₁ s ++ calls f l₂ (iterate f l₁ s) := by
  induction l₁ generalizing s with
  | nil => simp [iterate, stops, calls]
  | cons x xs ih =>
    by_cases h : (f x s).1 = true
    · by_cases h2 : stops f xs (f x s).2 = true
      · simp [iterate, stops, calls, h, ih, h2]
      · simp [iterate, stops, calls, h, ih, h2]
    · simp [iterate, stops, calls, h]

theorem stops_append (f : β → σ → Bool × σ) (l₁ l₂ : List β) (s : σ) :
    stops f (l₁ ++ l₂) s = (stops f l₁ s || stops f l₂ (iterate f l₁ s)) := by
  induction l₁ generalizing s with
  | nil => simp [iterate, stops]
  | cons x xs ih =>
    by_cases h : (f x s).1 = true
    · simp [iterate, stops, h, ih]
    · simp [iterate, stops, h]

theorem iterate_map (g : γ → β) (f : β → σ → Bool × σ) (l : List γ) (s : σ) :
    iterate f (l.map g) s = iterate (fun x => f (g x)) l s := by
  induction l generalizing s with
  | nil => rfl
  | cons x xs ih => simp [iterate, ih]

theorem calls_of_continue (f : β → σ → Bool × σ) (hf : ∀ x s, (f x s).1 = true)
    (l : List β) (s : σ) : calls f l s = l := by
  induction l generalizing s with
  | nil => rfl
  | cons x xs ih => simp [calls, hf, ih]

theorem stops_of_continue (f : β → σ → Bool × σ) (hf : ∀ x s, (f x s).1 = true)
    (l : List β) (s : σ) : stops f l s = false := by
  induction l generalizing s with
  | nil => rfl
  | cons x xs ih => simp [stops, hf, ih]

end Protocol

section Adapter

variable {α δ σ : Type}

theorem iterate_pointAdapter (iter : Visitor α δ σ) (l : List (Point α × δ)) (q : Bool) (s : σ) :
    iterate (fun e => PRTree.pointAdapter iter e.1 e.2) l (q, s) =
      (q || stops (onItem iter) (l.map asItem) s, iterate (onItem iter) (l.map asItem) s) := by
  induction l generalizing q s with
  | nil => simp [iterate, stops]
  | cons x xs ih =>
    by_cases h : (iter x.1 x.1 x.2 s).1 = true
    · simp [iterate, stops, PRTree.pointAdapter, onItem, asItem, h, ih]
    · simp [iterate, stops, PRTree.pointAdapter, onItem, asItem, h]

theorem iterate_traced (iter : Visitor α δ σ) (l : List (Item α δ)) (s : σ)
    (acc : List (Item α δ)) :
    iterate (onItem (traced iter)) l (s, acc) =
      (iterate (onItem iter) l s, acc ++ calls (onItem iter) l s) := by
  induction l generalizing s acc with
  | nil => simp [iterate, calls]
  | cons x xs ih =>
    by_cases h : (iter x.1 x.2.1 x.2.2 s).1 = true
    · simp [iterate, calls, traced, onItem, h] at ih ⊢
      rw [ih]
      simp
    · simp [iterate, calls, traced, onItem, h]

theorem hit_asItem [LinearOrder α] (min max : Point α) (e : Point α × δ) :
    hit min max (asItem e) = pointInBox min max e.1 := by
  simp only [hit, asItem, intersects, pointInBox]
  cases decide (e.1.1 ≤ max.1) <;> cases decide (min.1 ≤ e.1.1) <;>
    cases decide (e.1.2 ≤ max.2) <;> cases decide (min.2 ≤ e.1.2) <;> rfl

theorem stored_filter [LinearOrder α] (tr : PRTree α δ) (min max : Point α) :
    (stored tr).filter (hit min max) =
      (tr.ptree.items.filter (fun e => pointInBox min max e.1)).map asItem ++
        tr.rtree.items.filter (fun e => intersects min max e.1 e.2.1) := by
  unfold stored
  rw [List.filter_append, List.filter_map]
  congr 2
  · apply List.filter_congr
    intro e _
    exact hit_asItem min max e

theorem Search_eq [LinearOrder α] (tr : PRTree α δ) (min max : Point α)
    (iter : Visitor α δ σ) (s : σ) :
    tr.Search min max iter s = iterate (onItem iter) ((stored tr).filter (hit min max)) s := by
  rw [stored_filter, iterate_append]
  simp only [PRTree.Search, PTree.Search, RTree.Search, iterate_pointAdapter, Bool.false_or]
  cases stops (onItem iter) _ s <;> rfl

theorem Scan_eq (tr : PRTree α δ) (iter : Visitor α δ σ) (s : σ) :
    tr.Scan iter s = iterate (onItem iter) (stored tr) s := by
  unfold stored
  rw [iterate_append]
  simp only [PRTree.Scan, PTree.Scan, RTree.Scan, iterate_pointAdapter, Bool.false_or]
  cases stops (onItem iter) _ s <;> rfl

theorem searchCalls_eq [LinearOrder α] (tr : PRTree α δ) (min max : Point α)
    (iter : Visitor α δ σ) (s : σ) :
    searchCalls tr min max iter s = calls (onItem iter) ((stored tr).filter (hit min max)) s := by
  simp [searchCalls, Search_eq, iterate_traced]

theorem scanCalls_eq (tr : PRTree α δ) (iter : Visitor α δ σ) (s : σ) :
    scanCalls tr iter s = calls (onItem iter) (stored tr) s := by
  simp [scanCalls, Scan_eq, iterate_traced]

end Adapter
/-! ## The stored items under Insert and Delete -/

section Stored

variable {α δ σ : Type}

theorem calls_subset {β : Type} (f : β → σ → Bool × σ) (l : List β) (s : σ) :
    ∀ x ∈ calls f l s, x ∈ l := by
  induction l generalizing s with
  | nil => simp [calls]
  | cons y ys ih =>
    intro x hx
    by_cases h : (f y s).1 = true
    · simp only [calls, h, if_true, List.mem_cons] at hx ⊢
      rcases hx with hx | hx
      · exact Or.inl hx
      · exact Or.inr (ih _ x hx)
    · simp only [calls, h, List.mem_cons] at hx ⊢
      simp at hx
      exact Or.inl hx

theorem Len_eq_length (tr : PRTree α δ) : tr.Len = (stored tr).length := by
  simp [PRTree.Len, PTree.Len, RTree.Len, stored]

theorem Insert_point [LinearOrder α] (tr : PRTree α δ) (min max : Point α) (data : δ)
    (h : (decide (min = max) && tr.ptree.InBounds min) = true) :
    tr.Insert min max data = { ptree := tr.ptree.Insert min data, rtree := tr.rtree } := by
  unfold PRTree.Insert
  rw [if_pos h]

theorem Insert_rect [LinearOrder α] (tr : PRTree α δ) (min max : Point α) (data : δ)
    (h : ¬ (decide (min = max) && tr.ptree.InBounds min) = true) :
    tr.Insert min max data = { ptree := tr.ptree, rtree := tr.rtree.Insert min max data } := by
  unfold PRTree.Insert
  rw [if_neg h]

theorem Delete_point [LinearOrder α] [DecidableEq δ] (tr : PRTree α δ) (min max : Point α)
    (data : δ) (h : (decide (min = max) && tr.ptree.InBounds min) = true) :
    tr.Delete min max data = { ptree := tr.ptree.Delete min data, rtree := tr.rtree } := by
  unfold PRTree.Delete
  rw [if_pos h]

theorem Delete_rect [LinearOrder α] [DecidableEq δ] (tr : PRTree α δ) (min max : Point α)
    (data : δ) (h : ¬ (decide (min = max) && tr.ptree.InBounds min) = true) :
    tr.Delete min max data = { ptree := tr.ptree, rtree := tr.rtree.Delete min max data } := by
  unfold PRTree.Delete
  rw [if_neg h]

theorem InBounds_Insert [LinearOrder α] (pt : PTree α δ) (p q : Point α) (d : δ) :
    (pt.Insert p d).InBounds q = pt.InBounds q := rfl

theorem InBounds_Delete [LinearOrder α] [DecidableEq δ] (pt : PTree α δ) (p q : Point α)
    (d : δ) : (pt.Delete p d).InBounds q = pt.InBounds q := rfl

theorem eq_of_point_route [LinearOrder α] (tr : PRTree α δ) (min max : Point α)
    (h : (decide (min = max) && tr.ptree.InBounds min) = true) : min = max := by
  simp only [Bool.and_eq_true, decide_eq_true_eq] at h
  exact h.1

theorem stored_Insert_perm [LinearOrder α] (tr : PRTree α δ) (min max : Point α) (data : δ) :
    List.Perm (stored (tr.Insert min max data)) ((min, max, data) :: stored tr) := by
  by_cases h : (decide (min = max) && tr.ptree.InBounds min) = true
  · have hmm : min = max := eq_of_point_route tr min max h
    rw [Insert_point tr min max data h]
    subst hmm
    simp only [stored, PTree.Insert, List.map_append, List.map_cons,
      List.map_nil, asItem, List.append_assoc, List.singleton_append]
    exact List.perm_middle
  · rw [Insert_rect tr min max data h]
    simp only [stored, RTree.Insert]
    rw [← List.append_assoc]
    exact List.perm_append_singleton _ _

theorem erase_append_singleton {β : Type} [BEq β] [LawfulBEq β] (l : List β) (x : β) :
    List.Perm ((l ++ [x]).erase x) l := by
  induction l with
  | nil => simp
  | cons y ys ih =>
    by_cases h : (y == x) = true
    · have hyx : y = x := eq_of_beq h
      subst hyx
      simp
    · rw [List.cons_append, List.erase_cons_tail h]
      exact ih.cons y

theorem stored_Insert_Delete_perm [LinearOrder α] [DecidableEq δ] (tr : PRTree α δ)
    (min max : Point α) (data : δ) :
    List.Perm (stored ((tr.Insert min max data).Delete min max data)) (stored tr) := by
  by_cases h : (decide (min = max) && tr.ptree.InBounds min) = true
  · rw [Insert_point tr min max data h,
      Delete_point { ptree := tr.ptree.Insert min data, rtree := tr.rtree } min max data h]
    simp only [stored, PTree.Insert, PTree.Delete]
    exact ((erase_append_singleton tr.ptree.items (min, data)).map asItem).append_right _
  · rw [Insert_rect tr min max data h,
      Delete_rect { ptree := tr.ptree, rtree := tr.rtree.Insert min max data } min max data h]
    simp only [stored, RTree.Insert, RTree.Delete]
    exact (erase_append_singleton tr.rtree.items (min, max, data)).append_left _

end Stored

/-! ## Routing (Insert, Delete, Replace) -/

section Routing

variable {α δ σ : Type}

theorem Insert_eq_ite [LinearOrder α] (tr : PRTree α δ) (min max : Point α) (data : δ) :
    tr.Insert min max data =
      (if min = max ∧ tr.ptree.InBounds min = true then
        { ptree := tr.ptree.Insert min data, rtree := tr.rtree }
      else
        { ptree := tr.ptree, rtree := tr.rtree.Insert min max data }) := by
  by_cases h : (decide (min = max) && tr.ptree.InBounds min) = true
  · have h2 : min = max ∧ tr.ptree.InBounds min = true := by simpa using h
    rw [Insert_point tr min max data h, if_pos h2]
  · have h2 : ¬ (min = max ∧ tr.ptree.InBounds min = true) := by simpa using h
    rw [Insert_rect tr min max data h, if_neg h2]

theorem Delete_eq_ite [LinearOrder α] [DecidableEq δ] (tr : PRTree α δ) (min max : Point α)
    (data : δ) :
    tr.Delete min max data =
      (if min = max ∧ tr.ptree.InBounds min = true then
        { ptree := tr.ptree.Delete min data, rtree := tr.rtree }
      else
        { ptree := tr.ptree, rtree := tr.rtree.Delete min max data }) := by
  by_cases h : (decide (min = max) && tr.ptree.InBounds min) = true
  · have h2 : min = max ∧ tr.ptree.InBounds min = true := by simpa using h
    rw [Delete_point tr min max data h, if_pos h2]
  · have h2 : ¬ (min = max ∧ tr.ptree.InBounds min = true) := by simpa using h
    rw [Delete_rect tr min max data h, if_neg h2]

theorem InBounds_after_Delete [LinearOrder α] [DecidableEq δ] (tr : PRTree α δ)
    (min max q : Point α) (data : δ) :
    (tr.Delete min max data).ptree.InBounds q = tr.ptree.InBounds q := by
  rw [Delete_eq_ite]
  split_ifs <;> rfl

theorem InBounds_after_Insert [LinearOrder α] (tr : PRTree α δ)
    (min max q : Point α) (data : δ) :
    (tr.Insert min max data).ptree.InBounds q = tr.ptree.InBounds q := by
  rw [Insert_eq_ite]
  split_ifs <;> rfl

/-- C1: Insert and Delete each change exactly one sub-index, chosen by the same
predicate: the point sub-index iff `min == max` and `InBounds(min)`, otherwise
the rect sub-index.  The chosen sub-index receives the arguments unchanged
(`min, data` for the point index, `min, max, data` for the rect index) and the
other sub-index is left as it was. -/
theorem insert_delete_route [LinearOrder α] [DecidableEq δ] (tr : PRTree α δ)
    (min max : Point α) (data : δ) :
    tr.Insert min max data =
        (if min = max ∧ tr.ptree.InBounds min = true then
          { ptree := tr.ptree.Insert min data, rtree := tr.rtree }
        else
          { ptree := tr.ptree, rtree := tr.rtree.Insert min max data }) ∧
      tr.Delete min max data =
        (if min = max ∧ tr.ptree.InBounds min = true then
          { ptree := tr.ptree.Delete min data, rtree := tr.rtree }
        else
          { ptree := tr.ptree, rtree := tr.rtree.Delete min max data }) := by
  exact ⟨Insert_eq_ite tr min max data, Delete_eq_ite tr min max data⟩

theorem hit_of_boxContains [LinearOrder α] (qmin qmax min max : Point α) (data : δ)
    (h : boxContains qmin qmax min max = true) : hit qmin qmax (min, max, data) = true := by
  simp only [boxContains, pointInBox, Bool.and_eq_true, decide_eq_true_eq] at h
  simp only [hit, intersects, Bool.and_eq_true, decide_eq_true_eq]
  exact ⟨⟨⟨h.1.1.1.2, h.2.1.1.1⟩, h.1.2⟩, h.2.1.2⟩

theorem Len_Insert [LinearOrder α] (tr : PRTree α δ) (min max : Point α) (data : δ) :
    (tr.Insert min max data).Len = tr.Len + 1 := by
  rw [Len_eq_length, Len_eq_length, (stored_Insert_perm tr min max data).length_eq]
  rfl

theorem searchCalls_of_continue [LinearOrder α] (tr : PRTree α δ) (qmin qmax : Point α)
    (iter : Visitor α δ σ) (s : σ) (hc : ∀ a b d t, (iter a b d t).1 = true) :
    searchCalls tr qmin qmax iter s = (stored tr).filter (hit qmin qmax) := by
  rw [searchCalls_eq]
  exact calls_of_continue (onItem iter) (fun x t => hc x.1 x.2.1 x.2.2 t) _ s

theorem scanCalls_of_continue (tr : PRTree α δ) (iter : Visitor α δ σ) (s : σ)
    (hc : ∀ a b d t, (iter a b d t).1 = true) : scanCalls tr iter s = stored tr := by
  rw [scanCalls_eq]
  exact calls_of_continue (onItem iter) (fun x t => hc x.1 x.2.1 x.2.2 t) _ s

/-- C2: after `Insert(min, max, data)` (whichever sub-index the item is routed
to) `Len()` is exactly one greater than before, and `Search` with any query box
that contains the item's box calls a visitor that always continues on the
triple `(min, max, data)`. -/
theorem insert_len_and_found [LinearOrder α] (tr : PRTree α δ) (min max : Point α) (data : δ)
    (qmin qmax : Point α) (iter : Visitor α δ σ) (s : σ)
    (hq : boxContains qmin qmax min max = true)
    (hc : ∀ a b d t, (iter a b d t).1 = true) :
    (tr.Insert min max data).Len = tr.Len + 1 ∧
      (min, max, data) ∈ searchCalls (tr.Insert min max data) qmin qmax iter s := by
  refine ⟨Len_Insert tr min max data, ?_⟩
  rw [searchCalls_of_continue _ qmin qmax iter s hc, List.mem_filter]
  refine ⟨?_, hit_of_boxContains qmin qmax min max data hq⟩
  exact (stored_Insert_perm tr min max data).mem_iff.mpr (List.mem_cons_self _ _)

/-- Witness for C2 (scenario 1): on the empty world over (-180,-90)-(180,90),
inserting (1,1)-(1,1) "A" gives `Len() = 1` and `Search((0,0),(2,2))` visits
"A". -/
theorem insert_len_and_found_witness :
    boxContains (0, 0) (2, 2) ((1, 1) : Point ℤ) (1, 1) = true ∧
      (∀ (a b : Point ℤ) (d : String) (t : Unit), (keepGoing a b d t).1 = true) ∧
      world1.Len = 1 ∧
      ((world1.Len = newWorld.Len + 1) ∧
        ((1, 1), (1, 1), "A") ∈ searchCalls world1 (0, 0) (2, 2) keepGoing ()) :=
  ⟨by decide, fun _ _ _ _ => rfl, by decide,
    insert_len_and_found newWorld (1, 1) (1, 1) "A" (0, 0) (2, 2) keepGoing ()
      (by decide) (fun _ _ _ _ => rfl)⟩

theorem Len_Insert_Delete [LinearOrder α] [DecidableEq δ] (tr : PRTree α δ)
    (min max : Point α) (data : δ) :
    ((tr.Insert min max data).Delete min max data).Len = tr.Len := by
  rw [Len_eq_length, Len_eq_length, (stored_Insert_Delete_perm tr min max data).length_eq]

/-- Counterexample to C3 as stated: in the state that already holds the point
(1,1)-(1,1) "A" (scenario 1), `Insert` of the same item followed by `Delete` of
it restores `Len()` but the item is still visited by `Scan` and by
`Search((0,0),(2,2))`: one stored copy remains. -/
theorem insert_delete_still_visited :
    ((world1.Insert (1, 1) (1, 1) "A").Delete (1, 1) (1, 1) "A").Len = world1.Len ∧
      ((1, 1), (1, 1), "A") ∈
        scanCalls ((world1.Insert (1, 1) (1, 1) "A").Delete (1, 1) (1, 1) "A") keepGoing () ∧
      ((1, 1), (1, 1), "A") ∈
        searchCalls ((world1.Insert (1, 1) (1, 1) "A").Delete (1, 1) (1, 1) "A")
          (0, 0) (2, 2) keepGoing () := by
  decide

/-- C3 (amended): `Insert(X)` followed by `Delete(X)` restores `Len()`, and
`Scan` and every `Search` with a visitor that always continues then visit the
same items, with the same multiplicities, as before the `Insert`.  Hence, when
no item equal to `X` was stored before the `Insert`, `X` is not visited by the
subsequent `Scan` or `Search`, whatever the visitor does. -/
theorem insert_delete_restores [LinearOrder α] [DecidableEq δ] (tr : PRTree α δ)
    (min max : Point α) (data : δ) :
    ((tr.Insert min max data).Delete min max data).Len = tr.Len ∧
      (∀ (σ : Type) (iter : Visitor α δ σ) (s : σ), (∀ a b d t, (iter a b d t).1 = true) →
        List.Perm (scanCalls ((tr.Insert min max data).Delete min max data) iter s)
            (scanCalls tr iter s) ∧
          ∀ qmin qmax : Point α,
            List.Perm
              (searchCalls ((tr.Insert min max data).Delete min max data) qmin qmax iter s)
              (searchCalls tr qmin qmax iter s)) ∧
      ((min, max, data) ∉ stored tr →
        ∀ (σ : Type) (iter : Visitor α δ σ) (s : σ),
          (min, max, data) ∉
              scanCalls ((tr.Insert min max data).Delete min max data) iter s ∧
            ∀ qmin qmax : Point α,
              (min, max, data) ∉
                searchCalls ((tr.Insert min max data).Delete min max data) qmin qmax iter s) := by
  have hp := stored_Insert_Delete_perm tr min max data
  refine ⟨Len_Insert_Delete tr min max data, ?_, ?_⟩
  · intro σ iter s hc
    refine ⟨?_, ?_⟩
    · rw [scanCalls_of_continue _ iter s hc, scanCalls_of_continue _ iter s hc]
      exact hp
    · intro qmin qmax
      rw [searchCalls_of_continue _ qmin qmax iter s hc,
        searchCalls_of_continue _ qmin qmax iter s hc]
      exact hp.filter _
  · intro hx σ iter s
    refine ⟨?_, ?_⟩
    · intro hmem
      rw [scanCalls_eq] at hmem
      exact hx (hp.mem_iff.mp (calls_subset _ _ _ _ hmem))
    · intro qmin qmax hmem
      rw [searchCalls_eq] at hmem
      exact hx (hp.mem_iff.mp (List.mem_of_mem_filter (calls_subset _ _ _ _ hmem)))

/-- Witness for the amended C3: in the empty world the point (1,1)-(1,1) "A" is
not stored; after `Insert` and `Delete` of it `Len()` is back and neither
`Scan` nor `Search((0,0),(2,2))` visits it. -/
theorem insert_delete_restores_witness :
    ((1, 1), (1, 1), "A") ∉ stored newWorld ∧
      ((newWorld.Insert (1, 1) (1, 1) "A").Delete (1, 1) (1, 1) "A").Len = newWorld.Len ∧
      ((1, 1), (1, 1), "A") ∉
        scanCalls ((newWorld.Insert (1, 1) (1, 1) "A").Delete (1, 1) (1, 1) "A") keepGoing () ∧
      ((1, 1), (1, 1), "A") ∉
        searchCalls ((newWorld.Insert (1, 1) (1, 1) "A").Delete (1, 1) (1, 1) "A")
          (0, 0) (2, 2) keepGoing () :=
  ⟨by decide, (insert_delete_restores newWorld (1, 1) (1, 1) "A").1,
    ((insert_delete_restores newWorld (1, 1) (1, 1) "A").2.2 (by decide) Unit keepGoing ()).1,
    ((insert_delete_restores newWorld (1, 1) (1, 1) "A").2.2 (by decide) Unit keepGoing ()).2
      (0, 0) (2, 2)⟩

/-- C4: `Replace(old, new)` leaves the index in exactly the state reached by
`Delete(old)` followed by `Insert(new)`.  Each step is routed on its own
arguments (the domain test is not affected by the `Delete`), so the two
sub-indexes are as spelled out below; in the scenario the old item leaves the
point sub-index while the new item enters the rect sub-index. -/
theorem replace_is_delete_then_insert [LinearOrder α] [DecidableEq δ] (tr : PRTree α δ)
    (oldMin oldMax : Point α) (oldData : δ) (newMin newMax : Point α) (newData : δ) :
    tr.Replace oldMin oldMax oldData newMin newMax newData =
        (tr.Delete oldMin oldMax oldData).Insert newMin newMax newData ∧
      (tr.Replace oldMin oldMax oldData newMin newMax newData).ptree =
        (if newMin = newMax ∧ tr.ptree.InBounds newMin = true then
          PTree.Insert
            (if oldMin = oldMax ∧ tr.ptree.InBounds oldMin = true then
              tr.ptree.Delete oldMin oldData else tr.ptree) newMin newData
        else
          (if oldMin = oldMax ∧ tr.ptree.InBounds oldMin = true then
            tr.ptree.Delete oldMin oldData else tr.ptree)) ∧
      (tr.Replace oldMin oldMax oldData newMin newMax newData).rtree =
        (if newMin = newMax ∧ tr.ptree.InBounds newMin = true then
          (if oldMin = oldMax ∧ tr.ptree.InBounds oldMin = true then
            tr.rtree else tr.rtree.Delete oldMin oldMax oldData)
        else
          RTree.Insert
            (if oldMin = oldMax ∧ tr.ptree.InBounds oldMin = true then
              tr.rtree else tr.rtree.Delete oldMin oldMax oldData) newMin newMax newData) ∧
      (world1.Replace (1, 1) (1, 1) "A" (10, 10) (20, 20) "B").ptree.items = [] ∧
      (world1.Replace (1, 1) (1, 1) "A" (10, 10) (20, 20) "B").rtree.items =
        [((10, 10), (20, 20), "B")] := by
  refine ⟨rfl, ?_, ?_, by decide, by decide⟩
  · unfold PRTree.Replace
    rw [Insert_eq_ite, InBounds_after_Delete, Delete_eq_ite]
    split_ifs <;> rfl
  · unfold PRTree.Replace
    rw [Insert_eq_ite, InBounds_after_Delete, Delete_eq_ite]
    split_ifs <;> rfl

end Routing

/-! ## Merged queries (Search, Scan) -/

section Query

variable {α δ σ : Type}

theorem calls_of_not_stops {β : Type} (f : β → σ → Bool × σ) (l : List β) (s : σ)
    (h : stops f l s = false) : calls f l s = l := by
  induction l generalizing s with
  | nil => rfl
  | cons x xs ih =>
    by_cases hx : (f x s).1 = true
    · simp only [stops, hx, if_true] at h
      simp only [calls, hx, if_true, ih _ h]
    · simp [stops, hx] at h

theorem stops_split {β : Type} (f : β → σ → Bool × σ) (l : List β) (s : σ)
    (h : stops f l s = true) :
    ∃ pre x post, l = pre ++ x :: post ∧ stops f pre s = false ∧
      (f x (iterate f pre s)).1 = false ∧ calls f l s = pre ++ [x] ∧
      iterate f l s = (f x (iterate f pre s)).2 := by
  induction l generalizing s with
  | nil => simp [stops] at h
  | cons y ys ih =>
    by_cases hy : (f y s).1 = true
    · simp only [stops, hy, if_true] at h
      obtain ⟨pre, x, post, hl, hpre, hx, hcalls, hit⟩ := ih _ h
      refine ⟨y :: pre, x, post, ?_, ?_, ?_, ?_, ?_⟩
      · simp [hl]
      · simp [stops, hy, hpre]
      · simpa [iterate, hy] using hx
      · simp [calls, hy, hcalls]
      · simpa [iterate, hy] using hit
    · have hy2 : (f y s).1 = false := by simpa using hy
      refine ⟨[], y, ys, rfl, rfl, ?_, ?_, ?_⟩
      · simpa [iterate] using hy2
      · simp [calls, hy2]
      · simp [iterate, hy2]

theorem PTree_Search_adapter [LinearOrder α] (pt : PTree α δ) (min max : Point α)
    (iter : Visitor α δ σ) (s : σ) :
    pt.Search min max (fun point data => iter point point data) s =
      iterate (onItem iter) ((pt.items.filter (fun e => pointInBox min max e.1)).map asItem) s := by
  unfold PTree.Search
  rw [iterate_map]
  rfl

theorem RTree_Search_onItem [LinearOrder α] (rt : RTree α δ) (min max : Point α)
    (iter : Visitor α δ σ) (s : σ) :
    rt.Search min max iter s =
      iterate (onItem iter) (rt.items.filter (fun e => intersects min max e.1 e.2.1)) s := rfl

/-- C5: `Search` with a visitor that always continues calls it on exactly the
stored items whose box intersects the query box, once per stored copy and on
nothing else (the calls are a permutation of the intersecting stored items,
where an item of the point sub-index counts as the triple (point, point,
data)); and the stored items after `Insert(min, max, data)` are those before
plus the triple `(min, max, data)` itself, also when it is held as a point. -/
theorem search_visits_intersecting [LinearOrder α] (tr : PRTree α δ) (qmin qmax : Point α)
    (iter : Visitor α δ σ) (s : σ) (hc : ∀ a b d t, (iter a b d t).1 = true) :
    List.Perm (searchCalls tr qmin qmax iter s)
        ((tr.ptree.items.map (fun e => (e.1, e.1, e.2)) ++ tr.rtree.items).filter
          (fun e => intersects qmin qmax e.1 e.2.1)) ∧
      ∀ (min max : Point α) (data : δ),
        List.Perm ((tr.Insert min max data).ptree.items.map (fun e => (e.1, e.1, e.2)) ++
            (tr.Insert min max data).rtree.items)
          ((min, max, data) ::
            (tr.ptree.items.map (fun e => (e.1, e.1, e.2)) ++ tr.rtree.items)) := by
  refine ⟨?_, fun min max data => stored_Insert_perm tr min max data⟩
  rw [searchCalls_of_continue tr qmin qmax iter s hc]
  exact List.Perm.refl _

/-- Witness for C5 (scenario 2): with point "A" and rect "B" stored,
`Search((0,0),(2,2))` with a continuing visitor visits "A" as (1,1)-(1,1) and
nothing else. -/
theorem search_visits_intersecting_witness :
    (∀ (a b : Point ℤ) (d : String) (t : Unit), (keepGoing a b d t).1 = true) ∧
      List.Perm (searchCalls world2 (0, 0) (2, 2) keepGoing ()) [((1, 1), (1, 1), "A")] :=
  ⟨fun _ _ _ _ => rfl,
    (search_visits_intersecting world2 (0, 0) (2, 2) keepGoing () (fun _ _ _ _ => rfl)).1⟩

/-- C6: let `ph` be the hits of the point sub-index for the query box, as
triples.  If the visitor returns stop on one of them, then `Search` calls the
visitor exactly on the hits up to and including that one and never again, the
outcome is that of the point phase alone, and the rect sub-index plays no part:
replacing it by any other rect index changes neither the outcome nor the calls.
If the visitor never returns stop on `ph`, the outcome is that of the rect
sub-index's search with the same box and the same visitor, started in the
environment the point phase left. -/
theorem search_point_phase_stop [LinearOrder α] (tr : PRTree α δ) (min max : Point α)
    (iter : Visitor α δ σ) (s : σ) :
    (if stops (onItem iter)
          ((tr.ptree.items.filter (fun e => pointInBox min max e.1)).map asItem) s = true then
        (∃ pre x post,
            (tr.ptree.items.filter (fun e => pointInBox min max e.1)).map asItem =
              pre ++ x :: post ∧
            stops (onItem iter) pre s = false ∧
            (onItem iter x (iterate (onItem iter) pre s)).1 = false ∧
            searchCalls tr min max iter s = pre ++ [x] ∧
            tr.Search min max iter s = (onItem iter x (iterate (onItem iter) pre s)).2) ∧
          tr.Search min max iter s =
            tr.ptree.Search min max (fun point data => iter point point data) s ∧
          ∀ rt : RTree α δ,
            PRTree.Search { ptree := tr.ptree, rtree := rt } min max iter s =
                tr.Search min max iter s ∧
              searchCalls { ptree := tr.ptree, rtree := rt } min max iter s =
                searchCalls tr min max iter s
      else
        tr.Search min max iter s =
            tr.rtree.Search min max iter
              (tr.ptree.Search min max (fun point data => iter point point data) s) ∧
          searchCalls tr min max iter s =
            (tr.ptree.items.filter (fun e => pointInBox min max e.1)).map asItem ++
              calls (onItem iter)
                (tr.rtree.items.filter (fun e => intersects min max e.1 e.2.1))
                (tr.ptree.Search min max (fun point data => iter point point data) s)) := by
  have hS : ∀ t : PRTree α δ, t.Search min max iter s =
      iterate (onItem iter)
        ((t.ptree.items.filter (fun e => pointInBox min max e.1)).map asItem ++
          t.rtree.items.filter (fun e => intersects min max e.1 e.2.1)) s := by
    intro t
    rw [Search_eq, stored_filter]
  have hC : ∀ t : PRTree α δ, searchCalls t min max iter s =
      calls (onItem iter)
        ((t.ptree.items.filter (fun e => pointInBox min max e.1)).map asItem ++
          t.rtree.items.filter (fun e => intersects min max e.1 e.2.1)) s := by
    intro t
    rw [searchCalls_eq, stored_filter]
  by_cases h : stops (onItem iter)
      ((tr.ptree.items.filter (fun e => pointInBox min max e.1)).map asItem) s = true
  · rw [if_pos h]
    obtain ⟨pre, x, post, hl, hpre, hx, hcalls, hit⟩ := stops_split _ _ _ h
    have h1 : tr.Search min max iter s = iterate (onItem iter)
        ((tr.ptree.items.filter (fun e => pointInBox min max e.1)).map asItem) s := by
      rw [hS, iterate_append, if_pos h]
    have h2 : searchCalls tr min max iter s = calls (onItem iter)
        ((tr.ptree.items.filter (fun e => pointInBox min max e.1)).map asItem) s := by
      rw [hC, calls_append, if_pos h]
    refine ⟨⟨pre, x, post, hl, hpre, hx, ?_, ?_⟩, ?_, ?_⟩
    · rw [h2, hcalls]
    · rw [h1, hit]
    · rw [h1, PTree_Search_adapter]
    · intro rt
      refine ⟨?_, ?_⟩
      · rw [h1, hS, iterate_append, if_pos h]
      · rw [h2, hC, calls_append, if_pos h]
  · rw [if_neg h]
    have h0 : stops (onItem iter)
        ((tr.ptree.items.filter (fun e => pointInBox min max e.1)).map asItem) s = false := by
      simpa using h
    refine ⟨?_, ?_⟩
    · rw [hS, iterate_append, if_neg h, PTree_Search_adapter, RTree_Search_onItem]
    · rw [hC, calls_append, if_neg h, calls_of_not_stops _ _ _ h0, PTree_Search_adapter]

/-- C7: `Scan` with a visitor that always continues calls it on every stored
item of both sub-indexes exactly once (the calls are a permutation of the
point sub-index's items as (point, point, data) followed by the rect
sub-index's items), so the number of calls equals `Len()`, and `Len()` is the
sum of the two sub-indexes' item counts. -/
theorem scan_visits_all (tr : PRTree α δ) (iter : Visitor α δ σ) (s : σ)
    (hc : ∀ a b d t, (iter a b d t).1 = true) :
    List.Perm (scanCalls tr iter s)
        (tr.ptree.items.map (fun e => (e.1, e.1, e.2)) ++ tr.rtree.items) ∧
      (scanCalls tr iter s).length = tr.Len ∧
      tr.Len = tr.ptree.Len + tr.rtree.Len ∧
      tr.ptree.Len = tr.ptree.items.length ∧ tr.rtree.Len = tr.rtree.items.length := by
  rw [scanCalls_of_continue tr iter s hc]
  exact ⟨List.Perm.refl _, (Len_eq_length tr).symm, rfl, rfl, rfl⟩

/-- Witness for C7 (scenario 2): with point "A" and rect "B" stored, a
continuing `Scan` makes two calls, `Len()` is 2, one item in each sub-index. -/
theorem scan_visits_all_witness :
    (∀ (a b : Point ℤ) (d : String) (t : Unit), (keepGoing a b d t).1 = true) ∧
      (scanCalls world2 keepGoing ()).length = 2 ∧ world2.Len = 2 ∧
      List.Perm (scanCalls world2 keepGoing ())
        [((10, 10), (20, 20), "B"), ((1, 1), (1, 1), "A")] :=
  ⟨fun _ _ _ _ => rfl,
    (scan_visits_all world2 keepGoing () (fun _ _ _ _ => rfl)).2.1,
    by decide,
    ((scan_visits_all world2 keepGoing () (fun _ _ _ _ => rfl)).1).trans
      (List.Perm.swap _ _ [])⟩

/-- C8: `Scan` with a visitor that returns stop on its first call (whatever the
item) calls the visitor exactly once on a non-empty index and not at all on an
empty one.  The one call is on an item of the point sub-index when that has
items, and otherwise on an item of the rect sub-index; the other sub-index
contributes no call. -/
theorem scan_stop_at_first (tr : PRTree α δ) (iter : Visitor α δ σ) (s : σ)
    (hstop : ∀ a b d, (iter a b d s).1 = false) :
    (tr.Len = 0 → scanCalls tr iter s = []) ∧
      (0 < tr.Len → (scanCalls tr iter s).length = 1) ∧
      (0 < tr.ptree.Len → ∃ e ∈ tr.ptree.items, scanCalls tr iter s = [(e.1, e.1, e.2)]) ∧
      (tr.ptree.Len = 0 → 0 < tr.rtree.Len →
        ∃ e ∈ tr.rtree.items, scanCalls tr iter s = [e]) := by
  have hcons : ∀ (x : Item α δ) (xs : List (Item α δ)),
      calls (onItem iter) (x :: xs) s = [x] := by
    intro x xs
    simp [calls, onItem, hstop]
  rw [scanCalls_eq, Len_eq_length]
  unfold stored PTree.Len RTree.Len
  cases hp : tr.ptree.items with
  | nil =>
    cases hr : tr.rtree.items with
    | nil => simp [calls]
    | cons y ys =>
      simp only [List.map_nil, List.nil_append, hcons]
      simp
  | cons x xs =>
    simp only [List.map_cons, List.cons_append, hcons]
    simp [asItem]

/-- Witness for C8 (scenarios 1-3): with only rect "B" stored, a `Scan` whose
visitor stops at once visits exactly one item, "B". -/
theorem scan_stop_at_first_witness :
    (∀ (a b : Point ℤ) (d : String), (stopAtOnce a b d ()).1 = false) ∧
      0 < world3.Len ∧ (scanCalls world3 stopAtOnce ()).length = 1 ∧
      scanCalls world3 stopAtOnce () = [((10, 10), (20, 20), "B")] :=
  ⟨fun _ _ _ => rfl, by decide,
    (scan_stop_at_first world3 stopAtOnce () (fun _ _ _ => rfl)).2.1 (by decide),
    by decide⟩

end Query

/-! ## Bounds aggregation -/

section BoundsAggregation

variable {α δ : Type}

theorem expand_eq [LinearOrder α] (amin amax bmin bmax : Point α) :
    expand amin amax bmin bmax =
      ((Min.min amin.1 bmin.1, Min.min amin.2 bmin.2),
        (Max.max amax.1 bmax.1, Max.max amax.2 bmax.2)) := by
  obtain ⟨a1, a2⟩ := amin
  obtain ⟨c1, c2⟩ := amax
  obtain ⟨b1, b2⟩ := bmin
  obtain ⟨d1, d2⟩ := bmax
  simp only [expand, gt_iff_lt]
  have e1 : (if b1 < a1 then b1 else a1) = Min.min a1 b1 := by
    rw [min_def]; split_ifs with h1 h2 h2
    · exact absurd h1 (not_lt.mpr h2)
    · rfl
    · rfl
    · exact absurd (le_of_not_lt h1) h2
  have e2 : (if b2 < a2 then b2 else a2) = Min.min a2 b2 := by
    rw [min_def]; split_ifs with h1 h2 h2
    · exact absurd h1 (not_lt.mpr h2)
    · rfl
    · rfl
    · exact absurd (le_of_not_lt h1) h2
  have e3 : (if c1 < d1 then d1 else c1) = Max.max c1 d1 := by
    rw [max_def]; split_ifs with h1 h2 h2
    · rfl
    · exact absurd (le_of_lt h1) h2
    · exact le_antisymm h2 (le_of_not_lt h1)
    · rfl
  have e4 : (if c2 < d2 then d2 else c2) = Max.max c2 d2 := by
    rw [max_def]; split_ifs with h1 h2 h2
    · rfl
    · exact absurd (le_of_lt h1) h2
    · exact le_antisymm h2 (le_of_not_lt h1)
    · rfl
  rw [← e1, ← e2, ← e3, ← e4]
  split_ifs <;> rfl

theorem Bounds_both [LinearOrder α] [Zero α] (tr : PRTree α δ)
    (hp : 0 < tr.ptree.Len) (hr : 0 < tr.rtree.Len) :
    tr.Bounds =
      ((Min.min tr.ptree.MinBounds.1.1 tr.rtree.Bounds.1.1,
          Min.min tr.ptree.MinBounds.1.2 tr.rtree.Bounds.1.2),
        (Max.max tr.ptree.MinBounds.2.1 tr.rtree.Bounds.2.1,
          Max.max tr.ptree.MinBounds.2.2 tr.rtree.Bounds.2.2)) := by
  unfold PRTree.Bounds
  simp only [gt_iff_lt, hp, hr, if_true]
  exact expand_eq _ _ _ _

theorem Bounds_point_only [LinearOrder α] [Zero α] (tr : PRTree α δ)
    (hp : 0 < tr.ptree.Len) (hr : tr.rtree.Len = 0) : tr.Bounds = tr.ptree.MinBounds := by
  unfold PRTree.Bounds
  simp [hp, hr]

theorem Bounds_rect_only [LinearOrder α] [Zero α] (tr : PRTree α δ)
    (hp : tr.ptree.Len = 0) (hr : 0 < tr.rtree.Len) : tr.Bounds = tr.rtree.Bounds := by
  unfold PRTree.Bounds
  simp [hp, hr]

theorem Bounds_empty [LinearOrder α] [Zero α] (tr : PRTree α δ)
    (hp : tr.ptree.Len = 0) (hr : tr.rtree.Len = 0) : tr.Bounds = ((0, 0), (0, 0)) := by
  unfold PRTree.Bounds
  simp [hp, hr]

/-- C9: `Bounds()` is the zero box ((0,0),(0,0)) when both sub-indexes are
empty, exactly the non-empty sub-index's own bounds when exactly one is
non-empty, and, when both are non-empty, the box whose min corner is the
component-wise minimum of the two min corners and whose max corner is the
component-wise maximum of the two max corners, which is what `expand`
computes. -/
theorem bounds_cases [LinearOrder α] [Zero α] (tr : PRTree α δ) :
    tr.Bounds =
        (if tr.ptree.Len = 0 ∧ tr.rtree.Len = 0 then ((0, 0), (0, 0))
        else if tr.rtree.Len = 0 then tr.ptree.MinBounds
        else if tr.ptree.Len = 0 then tr.rtree.Bounds
        else
          ((Min.min tr.ptree.MinBounds.1.1 tr.rtree.Bounds.1.1,
              Min.min tr.ptree.MinBounds.1.2 tr.rtree.Bounds.1.2),
            (Max.max tr.ptree.MinBounds.2.1 tr.rtree.Bounds.2.1,
              Max.max tr.ptree.MinBounds.2.2 tr.rtree.Bounds.2.2))) ∧
      ∀ amin amax bmin bmax : Point α,
        expand amin amax bmin bmax =
          ((Min.min amin.1 bmin.1, Min.min amin.2 bmin.2),
            (Max.max amax.1 bmax.1, Max.max amax.2 bmax.2)) := by
  refine ⟨?_, expand_eq⟩
  by_cases hp : tr.ptree.Len = 0
  · by_cases hr : tr.rtree.Len = 0
    · rw [Bounds_empty tr hp hr, if_pos ⟨hp, hr⟩]
    · rw [Bounds_rect_only tr hp (Nat.pos_of_ne_zero hr), if_neg (fun h => hr h.2), if_neg hr,
        if_pos hp]
  · by_cases hr : tr.rtree.Len = 0
    · rw [Bounds_point_only tr (Nat.pos_of_ne_zero hp) hr, if_neg (fun h => hp h.1), if_pos hr]
    · rw [Bounds_both tr (Nat.pos_of_ne_zero hp) (Nat.pos_of_ne_zero hr),
        if_neg (fun h => hp h.1), if_neg hr, if_neg hp]

theorem isMinBoundingBox_append [LinearOrder α] (a b : Point α × Point α)
    (l₁ l₂ : List (Item α δ)) (ha : isMinBoundingBox a l₁) (hb : isMinBoundingBox b l₂) :
    isMinBoundingBox
      ((Min.min a.1.1 b.1.1, Min.min a.1.2 b.1.2), (Max.max a.2.1 b.2.1, Max.max a.2.2 b.2.2))
      (l₁ ++ l₂) := by
  obtain ⟨hin1, ⟨x1, hx1, ex1⟩, ⟨x2, hx2, ex2⟩, ⟨x3, hx3, ex3⟩, ⟨x4, hx4, ex4⟩⟩ := ha
  obtain ⟨hin2, ⟨y1, hy1, ey1⟩, ⟨y2, hy2, ey2⟩, ⟨y3, hy3, ey3⟩, ⟨y4, hy4, ey4⟩⟩ := hb
  refine ⟨?_, ?_, ?_, ?_, ?_⟩
  · intro e he
    rcases List.mem_append.mp he with h | h
    · obtain ⟨h1, h2, h3, h4⟩ := hin1 e h
      exact ⟨le_trans (min_le_left _ _) h1, le_trans (min_le_left _ _) h2,
        le_trans h3 (le_max_left _ _), le_trans h4 (le_max_left _ _)⟩
    · obtain ⟨h1, h2, h3, h4⟩ := hin2 e h
      exact ⟨le_trans (min_le_right _ _) h1, le_trans (min_le_right _ _) h2,
        le_trans h3 (le_max_right _ _), le_trans h4 (le_max_right _ _)⟩
  · rcases min_choice a.1.1 b.1.1 with h | h
    · exact ⟨x1, List.mem_append_left _ hx1, by rw [ex1]; exact h.symm⟩
    · exact ⟨y1, List.mem_append_right _ hy1, by rw [ey1]; exact h.symm⟩
  · rcases min_choice a.1.2 b.1.2 with h | h
    · exact ⟨x2, List.mem_append_left _ hx2, by rw [ex2]; exact h.symm⟩
    · exact ⟨y2, List.mem_append_right _ hy2, by rw [ey2]; exact h.symm⟩
  · rcases max_choice a.2.1 b.2.1 with h | h
    · exact ⟨x3, List.mem_append_left _ hx3, by rw [ex3]; exact h.symm⟩
    · exact ⟨y3, List.mem_append_right _ hy3, by rw [ey3]; exact h.symm⟩
  · rcases max_choice a.2.2 b.2.2 with h | h
    · exact ⟨x4, List.mem_append_left _ hx4, by rw [ex4]; exact h.symm⟩
    · exact ⟨y4, List.mem_append_right _ hy4, by rw [ey4]; exact h.symm⟩

theorem isMinBoundingBox_singleton [LinearOrder α] (e : Item α δ) :
    isMinBoundingBox (e.1, e.2.1) [e] := by
  refine ⟨?_, ⟨e, List.mem_singleton_self e, rfl⟩, ⟨e, List.mem_singleton_self e, rfl⟩,
    ⟨e, List.mem_singleton_self e, rfl⟩, ⟨e, List.mem_singleton_self e, rfl⟩⟩
  intro x hx
  rw [List.mem_singleton.mp hx]
  exact ⟨le_refl _, le_refl _, le_refl _, le_refl _⟩

theorem isMinBoundingBox_foldl [LinearOrder α] {γ : Type} (toItem : γ → Item α δ)
    (es : List γ) (b : Point α × Point α) (l : List (Item α δ))
    (hb : isMinBoundingBox b l) :
    isMinBoundingBox
      (es.foldl
        (fun b x => ((Min.min b.1.1 (toItem x).1.1, Min.min b.1.2 (toItem x).1.2),
          (Max.max b.2.1 (toItem x).2.1.1, Max.max b.2.2 (toItem x).2.1.2))) b)
      (l ++ es.map toItem) := by
  induction es generalizing b l with
  | nil => simpa using hb
  | cons x xs ih =>
    have h1 := isMinBoundingBox_append b ((toItem x).1, (toItem x).2.1) l [toItem x] hb
      (isMinBoundingBox_singleton (toItem x))
    have h2 := ih _ _ h1
    simpa [List.foldl_cons, List.map_cons, List.append_assoc] using h2

theorem PTree_MinBounds_isMin [LinearOrder α] [Zero α] (pt : PTree α δ) (h : 0 < pt.Len) :
    isMinBoundingBox pt.MinBounds (pt.items.map asItem) := by
  unfold PTree.Len at h
  unfold PTree.MinBounds
  cases hi : pt.items with
  | nil => rw [hi] at h; exact absurd h (lt_irrefl 0)
  | cons e es =>
    have h1 := isMinBoundingBox_foldl asItem es (e.1, e.1) [asItem e]
      (isMinBoundingBox_singleton (asItem e))
    simpa [asItem] using h1

theorem RTree_Bounds_isMin [LinearOrder α] [Zero α] (rt : RTree α δ) (h : 0 < rt.Len) :
    isMinBoundingBox rt.Bounds rt.items := by
  unfold RTree.Len at h
  unfold RTree.Bounds
  cases hi : rt.items with
  | nil => rw [hi] at h; exact absurd h (lt_irrefl 0)
  | cons e es =>
    have h1 := isMinBoundingBox_foldl (fun x : Item α δ => x) es (e.1, e.2.1) [e]
      (isMinBoundingBox_singleton e)
    simpa using h1

/-- C10: on a non-empty index, if each non-empty sub-index reports the minimum
bounding box of its own items, then `Bounds()` is the minimum bounding box of
all stored items: every stored item's box lies inside it and each of its four
extents is attained by some stored item. -/
theorem bounds_is_minimum_box [LinearOrder α] [Zero α] (tr : PRTree α δ)
    (hp : 0 < tr.ptree.Len →
      isMinBoundingBox tr.ptree.MinBounds (tr.ptree.items.map (fun e => (e.1, e.1, e.2))))
    (hr : 0 < tr.rtree.Len → isMinBoundingBox tr.rtree.Bounds tr.rtree.items)
    (hne : 0 < tr.Len) :
    isMinBoundingBox tr.Bounds
      (tr.ptree.items.map (fun e => (e.1, e.1, e.2)) ++ tr.rtree.items) := by
  by_cases hp0 : tr.ptree.Len = 0
  · have hr0 : 0 < tr.rtree.Len := by
      unfold PRTree.Len at hne
      omega
    have hnil : tr.ptree.items = [] := List.length_eq_zero.mp hp0
    rw [Bounds_rect_only tr hp0 hr0, hnil]
    exact hr hr0
  · have hp1 : 0 < tr.ptree.Len := Nat.pos_of_ne_zero hp0
    by_cases hr0 : tr.rtree.Len = 0
    · have hnil : tr.rtree.items = [] := List.length_eq_zero.mp hr0
      rw [Bounds_point_only tr hp1 hr0, hnil, List.append_nil]
      exact hp hp1
    · have hr1 : 0 < tr.rtree.Len := Nat.pos_of_ne_zero hr0
      rw [Bounds_both tr hp1 hr1]
      exact isMinBoundingBox_append _ _ _ _ (hp hp1) (hr hr1)

/-- Witness for C10 (scenario 2): with point (1,1) "A" and rect (10,10)-(20,20)
"B" stored, each sub-index reports the minimum bounding box of its own item and
`Bounds()` is (1,1),(20,20), the minimum bounding box of both. -/
theorem bounds_is_minimum_box_witness :
    isMinBoundingBox world2.ptree.MinBounds
        (world2.ptree.items.map (fun e => (e.1, e.1, e.2))) ∧
      isMinBoundingBox world2.rtree.Bounds world2.rtree.items ∧
      0 < world2.Len ∧
      world2.Bounds = ((1, 1), (20, 20)) ∧
      isMinBoundingBox world2.Bounds
        (world2.ptree.items.map (fun e => (e.1, e.1, e.2)) ++ world2.rtree.items) :=
  ⟨by unfold isMinBoundingBox; decide, by unfold isMinBoundingBox; decide, by decide, by decide,
    bounds_is_minimum_box world2 (fun _ => by unfold isMinBoundingBox; decide)
      (fun _ => by unfold isMinBoundingBox; decide) (by decide)⟩

end BoundsAggregation

/-! ## Bounds under Insert -/

section BoundsInsert

variable {α δ : Type}

theorem Bounds_isMin [LinearOrder α] [Zero α] (tr : PRTree α δ) (hne : 0 < tr.Len) :
    isMinBoundingBox tr.Bounds (stored tr) := by
  unfold stored
  by_cases hp0 : tr.ptree.Len = 0
  · have hr0 : 0 < tr.rtree.Len := by
      unfold PRTree.Len at hne
      omega
    have hnil : tr.ptree.items = [] := List.length_eq_zero.mp hp0
    rw [Bounds_rect_only tr hp0 hr0, hnil]
    exact RTree_Bounds_isMin tr.rtree hr0
  · have hp1 : 0 < tr.ptree.Len := Nat.pos_of_ne_zero hp0
    by_cases hr0 : tr.rtree.Len = 0
    · have hnil : tr.rtree.items = [] := List.length_eq_zero.mp hr0
      rw [Bounds_point_only tr hp1 hr0, hnil, List.append_nil]
      exact PTree_MinBounds_isMin tr.ptree hp1
    · have hr1 : 0 < tr.rtree.Len := Nat.pos_of_ne_zero hr0
      rw [Bounds_both tr hp1 hr1]
      exact isMinBoundingBox_append _ _ _ _ (PTree_MinBounds_isMin tr.ptree hp1)
        (RTree_Bounds_isMin tr.rtree hr1)

theorem Bounds_Insert_empty [LinearOrder α] [Zero α] (tr : PRTree α δ) (min max : Point α)
    (data : δ) (h0 : tr.Len = 0) : (tr.Insert min max data).Bounds = (min, max) := by
  have hp : tr.ptree.items = [] := by
    apply List.length_eq_zero.mp
    unfold PRTree.Len PTree.Len at h0
    omega
  have hr : tr.rtree.items = [] := by
    apply List.length_eq_zero.mp
    unfold PRTree.Len RTree.Len at h0
    omega
  by_cases h : (decide (min = max) && tr.ptree.InBounds min) = true
  · have hmm : min = max := eq_of_point_route tr min max h
    rw [Insert_point tr min max data h]
    rw [Bounds_point_only _ (by simp [PTree.Len, PTree.Insert]) (by simp [RTree.Len, hr])]
    simp [PTree.MinBounds, PTree.Insert, hp, hmm]
  · rw [Insert_rect tr min max data h]
    rw [Bounds_rect_only _ (by simp [PTree.Len, hp]) (by simp [RTree.Len, RTree.Insert])]
    simp [RTree.Bounds, RTree.Insert, hr]

/-- Counterexample to C11 as stated: on the empty world `Bounds()` is the zero
box (0,0)-(0,0); the point (5,5) is not inside it, and after inserting it
`Bounds()` is (5,5)-(5,5), which does not contain the old `Bounds()`. -/
theorem bounds_after_first_insert_not_expanding :
    newWorld.Bounds = ((0, 0), (0, 0)) ∧
      ¬ boxWithin newWorld.Bounds ((5, 5) : Point ℤ) (5, 5) ∧
      (newWorld.Insert (5, 5) (5, 5) "A").Bounds = ((5, 5), (5, 5)) ∧
      ¬ boxWithin (newWorld.Insert (5, 5) (5, 5) "A").Bounds newWorld.Bounds.1
        newWorld.Bounds.2 := by
  unfold boxWithin
  decide

/-- C11 (amended): on a non-empty index, inserting an item whose box is not
inside the current `Bounds()` strictly expands it: the new `Bounds()` contains
the old one, contains the inserted item's box, and differs from the old one.
On an empty index `Bounds()` is the zero box and after the insert it is
exactly the inserted item's box `(min, max)`. -/
theorem bounds_insert_expands [LinearOrder α] [Zero α] (tr : PRTree α δ)
    (min max : Point α) (data : δ) :
    (0 < tr.Len → ¬ boxWithin tr.Bounds min max →
        boxWithin (tr.Insert min max data).Bounds tr.Bounds.1 tr.Bounds.2 ∧
          boxWithin (tr.Insert min max data).Bounds min max ∧
          (tr.Insert min max data).Bounds ≠ tr.Bounds) ∧
      (tr.Len = 0 →
        tr.Bounds = ((0, 0), (0, 0)) ∧ (tr.Insert min max data).Bounds = (min, max)) := by
  refine ⟨?_, ?_⟩
  · intro hne hout
    have hnew : isMinBoundingBox (tr.Insert min max data).Bounds
        (stored (tr.Insert min max data)) := by
      apply Bounds_isMin
      rw [Len_Insert]
      exact Nat.succ_pos _
    have hold := Bounds_isMin tr hne
    have hperm := stored_Insert_perm tr min max data
    have hsub : ∀ e ∈ stored tr, e ∈ stored (tr.Insert min max data) := fun e he =>
      hperm.mem_iff.mpr (List.mem_cons_of_mem _ he)
    have hx : (min, max, data) ∈ stored (tr.Insert min max data) :=
      hperm.mem_iff.mpr (List.mem_cons_self _ _)
    obtain ⟨hin, _, _, _, _⟩ := hnew
    obtain ⟨_, ⟨e1, he1, x1⟩, ⟨e2, he2, x2⟩, ⟨e3, he3, x3⟩, ⟨e4, he4, x4⟩⟩ := hold
    have hitem : boxWithin (tr.Insert min max data).Bounds min max := hin _ hx
    refine ⟨⟨?_, ?_, ?_, ?_⟩, hitem, ?_⟩
    · rw [← x1]; exact (hin e1 (hsub e1 he1)).1
    · rw [← x2]; exact (hin e2 (hsub e2 he2)).2.1
    · rw [← x3]; exact (hin e3 (hsub e3 he3)).2.2.1
    · rw [← x4]; exact (hin e4 (hsub e4 he4)).2.2.2
    · intro heq
      rw [heq] at hitem
      exact hout hitem
  · intro h0
    refine ⟨?_, Bounds_Insert_empty tr min max data h0⟩
    apply Bounds_empty
    · unfold PRTree.Len at h0
      omega
    · unfold PRTree.Len at h0
      omega

/-- Witness for the amended C11 (scenarios 1-2): with point (1,1) "A" stored,
`Bounds()` is (1,1)-(1,1); the rect (10,10)-(20,20) is not inside it, and after
inserting it `Bounds()` is (1,1)-(20,20), which contains both. -/
theorem bounds_insert_expands_witness :
    0 < world1.Len ∧ ¬ boxWithin world1.Bounds ((10, 10) : Point ℤ) (20, 20) ∧
      world2.Bounds = ((1, 1), (20, 20)) ∧
      (boxWithin world2.Bounds world1.Bounds.1 world1.Bounds.2 ∧
        boxWithin world2.Bounds ((10, 10) : Point ℤ) (20, 20) ∧
        world2.Bounds ≠ world1.Bounds) :=
  ⟨by decide, by unfold boxWithin; decide, by decide,
    (bounds_insert_expands world1 (10, 10) (20, 20) "B").1 (by decide)
      (by unfold boxWithin; decide)⟩

end BoundsInsert

/-! ## Delete: misses, repetition and the routing invariant -/

section DeleteLaws

variable {α δ σ : Type}

theorem perm_erase_lawful {β : Type} [BEq β] [LawfulBEq β] (a : β) {l₁ l₂ : List β}
    (p : List.Perm l₁ l₂) : List.Perm (l₁.erase a) (l₂.erase a) := by
  induction p with
  | nil => exact List.Perm.refl _
  | cons x _ ih =>
    by_cases h : (x == a) = true
    · simpa [List.erase_cons, h]
    · simpa [List.erase_cons, h] using ih
  | swap x y l =>
    by_cases hx : (x == a) = true
    · by_cases hy : (y == a) = true
      · have h1 : x = a := eq_of_beq hx
        have h2 : y = a := eq_of_beq hy
        subst h1
        subst h2
        exact List.Perm.refl _
      · simp [List.erase_cons, hx, hy]
    · by_cases hy : (y == a) = true
      · simp [List.erase_cons, hx, hy]
      · simp [List.erase_cons, hx, hy, List.Perm.swap]
  | trans _ _ ih1 ih2 => exact ih1.trans ih2

theorem perm_cons_erase_lawful {β : Type} [BEq β] [LawfulBEq β] {a : β} {l : List β}
    (h : a ∈ l) : List.Perm l (a :: l.erase a) := by
  induction l with
  | nil => simp at h
  | cons y ys ih =>
    by_cases hy : (y == a) = true
    · have hya : y = a := eq_of_beq hy
      subst hya
      simp
    · have hne : a ≠ y := fun hay => hy (by rw [hay]; exact beq_self_eq_true y)
      have hmem : a ∈ ys := by
        rcases List.mem_cons.mp h with h1 | h1
        · exact absurd h1 hne
        · exact h1
      rw [List.erase_cons_tail hy]
      exact ((ih hmem).cons y).trans (List.Perm.swap a y _)

theorem count_le_count_map_lawful {β γ : Type} [BEq β] [LawfulBEq β] [BEq γ] [LawfulBEq γ]
    (f : β → γ) (l : List β) (x : β) : List.count x l ≤ List.count (f x) (l.map f) := by
  induction l with
  | nil => simp
  | cons y ys ih =>
    by_cases h : y = x
    · subst h
      simp only [List.map_cons, List.count_cons_self]
      omega
    · rw [List.count_cons_of_ne (Ne.symm h), List.map_cons, List.count_cons]
      omega

theorem not_mem_sub_of_not_mem_stored [LinearOrder α] (tr : PRTree α δ)
    (min max : Point α) (data : δ) (h : (min, max, data) ∉ stored tr) :
    (min = max → (min, data) ∉ tr.ptree.items) ∧ (min, max, data) ∉ tr.rtree.items := by
  unfold stored at h
  rw [List.mem_append, not_or] at h
  refine ⟨?_, h.2⟩
  intro hmm hmem
  apply h.1
  rw [List.mem_map]
  exact ⟨(min, data), hmem, by rw [← hmm]; rfl⟩

theorem Delete_eq_self_of_not_mem [LinearOrder α] [DecidableEq δ] (tr : PRTree α δ)
    (min max : Point α) (data : δ) (h : (min, max, data) ∉ stored tr) :
    tr.Delete min max data = tr := by
  obtain ⟨hp, hr⟩ := not_mem_sub_of_not_mem_stored tr min max data h
  by_cases hroute : (decide (min = max) && tr.ptree.InBounds min) = true
  · rw [Delete_point tr min max data hroute]
    unfold PTree.Delete
    rw [List.erase_of_not_mem (hp (eq_of_point_route tr min max hroute))]
  · rw [Delete_rect tr min max data hroute]
    unfold RTree.Delete
    rw [List.erase_of_not_mem hr]

/-- C16: when no item equal to `(min, max, data)` is stored, `Delete(min, max,
data)` is a silent no-op: it returns (the embedding is a total function), and
it leaves the state, hence `Len()` and the calls made by `Scan` and by every
`Search` with any visitor, exactly as they were. -/
theorem delete_miss_is_noop [LinearOrder α] [DecidableEq δ] (tr : PRTree α δ)
    (min max : Point α) (data : δ)
    (h : (min, max, data) ∉
      tr.ptree.items.map (fun e => (e.1, e.1, e.2)) ++ tr.rtree.items) :
    tr.Delete min max data = tr ∧
      (tr.Delete min max data).Len = tr.Len ∧
      ∀ (iter : Visitor α δ σ) (s : σ),
        scanCalls (tr.Delete min max data) iter s = scanCalls tr iter s ∧
          ∀ qmin qmax : Point α,
            searchCalls (tr.Delete min max data) qmin qmax iter s =
              searchCalls tr qmin qmax iter s := by
  have heq : tr.Delete min max data = tr := Delete_eq_self_of_not_mem tr min max data h
  rw [heq]
  exact ⟨rfl, rfl, fun _ _ => ⟨rfl, fun _ _ => rfl⟩⟩

/-- Witness for C16 (scenario 3): with only rect "B" stored, the point (1,1)
"A" is not stored and deleting it changes nothing. -/
theorem delete_miss_is_noop_witness :
    ((1, 1), (1, 1), "A") ∉
        world3.ptree.items.map (fun e => (e.1, e.1, e.2)) ++ world3.rtree.items ∧
      world3.Delete (1, 1) (1, 1) "A" = world3 ∧
      (world3.Delete (1, 1) (1, 1) "A").Len = 1 :=
  ⟨by decide,
    (delete_miss_is_noop (σ := Unit) world3 (1, 1) (1, 1) "A" (by decide)).1,
    by decide⟩

/-- Counterexample to C17 as stated: with the point (1,1) "A" stored twice, one
`Delete` leaves one copy (`Len() = 1`, still visited by `Scan`) and a second
`Delete` removes that copy too (`Len() = 0`, `Scan` visits nothing). -/
theorem delete_twice_differs :
    ((world1.Insert (1, 1) (1, 1) "A").Delete (1, 1) (1, 1) "A").Len = 1 ∧
      (((world1.Insert (1, 1) (1, 1) "A").Delete (1, 1) (1, 1) "A").Delete
        (1, 1) (1, 1) "A").Len = 0 ∧
      scanCalls ((world1.Insert (1, 1) (1, 1) "A").Delete (1, 1) (1, 1) "A") keepGoing () =
        [((1, 1), (1, 1), "A")] ∧
      scanCalls (((world1.Insert (1, 1) (1, 1) "A").Delete (1, 1) (1, 1) "A").Delete
        (1, 1) (1, 1) "A") keepGoing () = [] := by
  decide

/-- C17 (amended): when at most one item equal to `X` is stored, `Delete(X)`
performed twice leaves the index in the same state (same `Len()`, same `Scan`
calls) as `Delete(X)` performed once. -/
theorem delete_twice_eq_once [LinearOrder α] [DecidableEq δ] (tr : PRTree α δ)
    (min max : Point α) (data : δ)
    (h : List.count (min, max, data)
      (tr.ptree.items.map (fun e => (e.1, e.1, e.2)) ++ tr.rtree.items) ≤ 1) :
    (tr.Delete min max data).Delete min max data = tr.Delete min max data ∧
      ((tr.Delete min max data).Delete min max data).Len = (tr.Delete min max data).Len ∧
      ∀ (iter : Visitor α δ σ) (s : σ),
        scanCalls ((tr.Delete min max data).Delete min max data) iter s =
          scanCalls (tr.Delete min max data) iter s := by
  have heq : (tr.Delete min max data).Delete min max data = tr.Delete min max data := by
    rw [List.count_append] at h
    by_cases hroute : (decide (min = max) && tr.ptree.InBounds min) = true
    · have hmm : min = max := eq_of_point_route tr min max hroute
      rw [Delete_point tr min max data hroute]
      rw [Delete_point { ptree := tr.ptree.Delete min data, rtree := tr.rtree } min max data
        hroute]
      have hc : List.count (min, data) tr.ptree.items ≤ 1 := by
        have h1 := count_le_count_map_lawful (fun e : Point α × δ => (e.1, e.1, e.2))
          tr.ptree.items (min, data)
        have h2 : ((min, data).1, (min, data).1, (min, data).2) = (min, max, data) := by
          rw [← hmm]
        rw [h2] at h1
        omega
      have hnot : (min, data) ∉ tr.ptree.items.erase (min, data) := by
        intro hmem
        have := List.count_pos_iff.mpr hmem
        rw [List.count_erase_self] at this
        omega
      unfold PTree.Delete
      simp only
      rw [List.erase_of_not_mem hnot]
    · rw [Delete_rect tr min max data hroute]
      rw [Delete_rect { ptree := tr.ptree, rtree := tr.rtree.Delete min max data } min max data
        hroute]
      have hnot : (min, max, data) ∉ tr.rtree.items.erase (min, max, data) := by
        intro hmem
        have := List.count_pos_iff.mpr hmem
        rw [List.count_erase_self] at this
        omega
      unfold RTree.Delete
      simp only
      rw [List.erase_of_not_mem hnot]
  rw [heq]
  exact ⟨rfl, rfl, fun _ _ => rfl⟩

/-- Witness for the amended C17 (scenario 2): with point "A" and rect "B" each
stored once, deleting "A" a second time changes nothing more. -/
theorem delete_twice_eq_once_witness :
    List.count ((1, 1), (1, 1), "A")
        (world2.ptree.items.map (fun e => (e.1, e.1, e.2)) ++ world2.rtree.items) ≤ 1 ∧
      (world2.Delete (1, 1) (1, 1) "A").Delete (1, 1) (1, 1) "A" =
        world2.Delete (1, 1) (1, 1) "A" ∧
      (world2.Delete (1, 1) (1, 1) "A").Len = 1 :=
  ⟨by decide,
    (delete_twice_eq_once (σ := Unit) world2 (1, 1) (1, 1) "A" (by decide)).1,
    by decide⟩

end DeleteLaws

/-! ## Reachable states and the routing invariant -/

section Reachable

variable {α δ σ : Type}

theorem routed_New [LinearOrder α] (min max : Point α) :
    routed (PRTree.New min max : PRTree α δ) := by
  constructor
  · intro e he
    simp [PRTree.New, PTree.New] at he
  · intro e he
    simp [PRTree.New] at he

theorem routed_Insert [LinearOrder α] (tr : PRTree α δ) (min max : Point α) (data : δ)
    (h : routed tr) : routed (tr.Insert min max data) := by
  obtain ⟨hp, hr⟩ := h
  by_cases hroute : (decide (min = max) && tr.ptree.InBounds min) = true
  · have hin : tr.ptree.InBounds min = true := by
      simp only [Bool.and_eq_true, decide_eq_true_eq] at hroute
      exact hroute.2
    rw [Insert_point tr min max data hroute]
    constructor
    · intro e he
      simp only [PTree.Insert, List.mem_append, List.mem_singleton] at he
      rcases he with he | he
      · exact hp e he
      · rw [he]
        exact hin
    · exact hr
  · rw [Insert_rect tr min max data hroute]
    constructor
    · exact hp
    · intro e he
      simp only [RTree.Insert, List.mem_append, List.mem_singleton] at he
      rcases he with he | he
      · exact hr e he
      · rw [he]
        simpa using hroute

theorem routed_Delete [LinearOrder α] [DecidableEq δ] (tr : PRTree α δ) (min max : Point α)
    (data : δ) (h : routed tr) : routed (tr.Delete min max data) := by
  obtain ⟨hp, hr⟩ := h
  by_cases hroute : (decide (min = max) && tr.ptree.InBounds min) = true
  · rw [Delete_point tr min max data hroute]
    exact ⟨fun e he => hp e (List.mem_of_mem_erase he), hr⟩
  · rw [Delete_rect tr min max data hroute]
    exact ⟨hp, fun e he => hr e (List.mem_of_mem_erase he)⟩

theorem routed_step [LinearOrder α] [DecidableEq δ] (tr : PRTree α δ) (op : Op α δ)
    (h : routed tr) : routed (tr.step op) := by
  cases op with
  | insert min max data => exact routed_Insert tr min max data h
  | delete min max data => exact routed_Delete tr min max data h
  | replace a b c d e f => exact routed_Insert _ d e f (routed_Delete tr a b c h)

theorem routed_run [LinearOrder α] [DecidableEq δ] (tr : PRTree α δ) (ops : List (Op α δ))
    (h : routed tr) : routed (tr.run ops) := by
  induction ops generalizing tr with
  | nil => exact h
  | cons op ops ih => exact ih (tr.step op) (routed_step tr op h)

theorem InBounds_step [LinearOrder α] [DecidableEq δ] (tr : PRTree α δ) (op : Op α δ)
    (q : Point α) : (tr.step op).ptree.InBounds q = tr.ptree.InBounds q := by
  cases op with
  | insert min max data => exact InBounds_after_Insert tr min max q data
  | delete min max data => exact InBounds_after_Delete tr min max q data
  | replace a b c d e f =>
    show ((tr.Delete a b c).Insert d e f).ptree.InBounds q = _
    rw [InBounds_after_Insert, InBounds_after_Delete]

theorem InBounds_run [LinearOrder α] [DecidableEq δ] (tr : PRTree α δ) (ops : List (Op α δ))
    (q : Point α) : (tr.run ops).ptree.InBounds q = tr.ptree.InBounds q := by
  induction ops generalizing tr with
  | nil => rfl
  | cons op ops ih =>
    show ((tr.step op).run ops).ptree.InBounds q = _
    rw [ih, InBounds_step]

theorem stored_Delete_perm [LinearOrder α] [DecidableEq δ] (tr : PRTree α δ)
    (min max : Point α) (data : δ) (h : routed tr) :
    List.Perm (stored (tr.Delete min max data)) ((stored tr).erase (min, max, data)) := by
  obtain ⟨hp, hr⟩ := h
  by_cases hroute : (decide (min = max) && tr.ptree.InBounds min) = true
  · have hmm : min = max := eq_of_point_route tr min max hroute
    have hin : tr.ptree.InBounds min = true := by
      simp only [Bool.and_eq_true, decide_eq_true_eq] at hroute
      exact hroute.2
    subst hmm
    rw [Delete_point tr min min data hroute]
    unfold stored PTree.Delete
    simp only
    by_cases hmem : (min, data) ∈ tr.ptree.items
    · have hmem2 : (min, min, data) ∈ tr.ptree.items.map asItem :=
        List.mem_map.mpr ⟨(min, data), hmem, rfl⟩
      rw [List.erase_append_left _ hmem2]
      apply List.Perm.append_right
      have hperm : List.Perm tr.ptree.items ((min, data) :: tr.ptree.items.erase (min, data)) :=
        perm_cons_erase_lawful hmem
      have h1 := perm_erase_lawful (min, min, data) (hperm.map asItem)
      have h2 : ((List.map asItem ((min, data) :: tr.ptree.items.erase (min, data))).erase
          (min, min, data)) = List.map asItem (tr.ptree.items.erase (min, data)) := by
        rw [List.map_cons]
        exact List.erase_cons_head _ _
      rw [h2] at h1
      exact h1.symm
    · rw [List.erase_of_not_mem hmem]
      have hnot : (min, min, data) ∉ tr.ptree.items.map asItem ++ tr.rtree.items := by
        rw [List.mem_append, not_or]
        refine ⟨?_, ?_⟩
        · intro hm
          obtain ⟨e, he, hee⟩ := List.mem_map.mp hm
          apply hmem
          have : e = (min, data) := by
            unfold asItem at hee
            simp only [Prod.mk.injEq] at hee
            exact Prod.ext hee.1 hee.2.2
          rw [← this]
          exact he
        · intro hm
          exact hr _ hm ⟨rfl, hin⟩
      rw [List.erase_of_not_mem hnot]
  · rw [Delete_rect tr min max data hroute]
    unfold stored RTree.Delete
    simp only
    have hnot : (min, max, data) ∉ tr.ptree.items.map asItem := by
      intro hm
      obtain ⟨e, he, hee⟩ := List.mem_map.mp hm
      unfold asItem at hee
      simp only [Prod.mk.injEq] at hee
      have h1 : min = max := by rw [← hee.1, ← hee.2.1]
      have h2 : tr.ptree.InBounds min = true := by
        rw [← hee.1]
        exact hp e he
      apply hroute
      rw [Bool.and_eq_true]
      exact ⟨decide_eq_true h1, h2⟩
    rw [List.erase_append_right _ hnot]

theorem live_perm [DecidableEq α] [DecidableEq δ] (ops : List (Op α δ))
    (l₁ l₂ : List (Item α δ)) (h : List.Perm l₁ l₂) :
    List.Perm (live l₁ ops) (live l₂ ops) := by
  induction ops generalizing l₁ l₂ with
  | nil => exact h
  | cons op ops ih =>
    cases op with
    | insert min max data => exact ih _ _ (h.append_right _)
    | delete min max data => exact ih _ _ (perm_erase_lawful _ h)
    | replace a b c d e f => exact ih _ _ ((perm_erase_lawful _ h).append_right _)

theorem stored_run_perm [LinearOrder α] [DecidableEq δ] (ops : List (Op α δ))
    (tr : PRTree α δ) (h : routed tr) :
    List.Perm (stored (tr.run ops)) (live (stored tr) ops) := by
  induction ops generalizing tr with
  | nil => exact List.Perm.refl _
  | cons op ops ih =>
    have h1 : List.Perm (stored ((tr.step op).run ops)) (live (stored (tr.step op)) ops) :=
      ih (tr.step op) (routed_step tr op h)
    cases op with
    | insert min max data =>
      refine h1.trans (live_perm ops _ _ ?_)
      exact (stored_Insert_perm tr min max data).trans (List.perm_append_singleton _ _).symm
    | delete min max data =>
      exact h1.trans (live_perm ops _ _ (stored_Delete_perm tr min max data h))
    | replace a b c d e f =>
      refine h1.trans (live_perm ops _ _ ?_)
      show List.Perm (stored ((tr.Delete a b c).Insert d e f)) _
      refine (stored_Insert_perm _ d e f).trans ?_
      refine (List.perm_append_singleton _ _).symm.trans ?_
      exact (stored_Delete_perm tr a b c h).append_right _

/-- C19: in every state reached from `New(dmin, dmax)` by any sequence of
`Insert`, `Delete` and `Replace`, the domain test is still that of the
constructor, every item of the point sub-index is a degenerate box whose point
lies within the domain, and every item of the rect sub-index is non-degenerate
or lies outside the domain.  Hence `Insert` and `Delete` of the same
`(min, max)` address the same sub-index, and `Delete` of a stored item removes
exactly one copy of it: it is never missed because of routing. -/
theorem reachable_routing_invariant [LinearOrder α] [DecidableEq δ] (dmin dmax : Point α)
    (ops : List (Op α δ)) :
    (∀ q : Point α,
        ((PRTree.New dmin dmax : PRTree α δ).run ops).ptree.InBounds q =
          pointInBox dmin dmax q) ∧
      (∀ e ∈ ((PRTree.New dmin dmax : PRTree α δ).run ops).ptree.items.map
          (fun e => (e.1, e.1, e.2)),
        e.1 = e.2.1 ∧ pointInBox dmin dmax e.1 = true) ∧
      (∀ e ∈ ((PRTree.New dmin dmax : PRTree α δ).run ops).rtree.items,
        ¬ (e.1 = e.2.1 ∧ pointInBox dmin dmax e.1 = true)) ∧
      ∀ (min max : Point α) (data : δ),
        (min, max, data) ∈ stored ((PRTree.New dmin dmax : PRTree α δ).run ops) →
          (((PRTree.New dmin dmax : PRTree α δ).run ops).Delete min max data).Len + 1 =
              ((PRTree.New dmin dmax : PRTree α δ).run ops).Len ∧
            List.Perm
              (stored (((PRTree.New dmin dmax : PRTree α δ).run ops).Delete min max data))
              ((stored ((PRTree.New dmin dmax : PRTree α δ).run ops)).erase
                (min, max, data)) := by
  have hinv := routed_run (PRTree.New dmin dmax : PRTree α δ) ops (routed_New dmin dmax)
  have hdom : ∀ q : Point α,
      ((PRTree.New dmin dmax : PRTree α δ).run ops).ptree.InBounds q =
        pointInBox dmin dmax q := by
    intro q
    rw [InBounds_run]
    rfl
  refine ⟨hdom, ?_, ?_, ?_⟩
  · intro e he
    obtain ⟨x, hx, hxe⟩ := List.mem_map.mp he
    rw [← hxe]
    exact ⟨rfl, by rw [← hdom]; exact hinv.1 x hx⟩
  · intro e he hcon
    exact hinv.2 e he ⟨hcon.1, by rw [hdom]; exact hcon.2⟩
  · intro min max data hmem
    have hperm := stored_Delete_perm _ min max data hinv
    refine ⟨?_, hperm⟩
    rw [Len_eq_length, Len_eq_length, hperm.length_eq, List.length_erase_of_mem hmem]
    have hpos : 0 < (stored ((PRTree.New dmin dmax : PRTree α δ).run ops)).length :=
      List.length_pos_of_mem hmem
    omega

/-- Witness for C19 (scenarios 1-2): after inserting the point "A" and the rect
"B" into the world, "A" is stored and deleting it lowers `Len()` from 2 to 1. -/
theorem reachable_routing_invariant_witness :
    ((1, 1), (1, 1), "A") ∈
        stored ((PRTree.New (-180, -90) (180, 90) : PRTree ℤ String).run
          [.insert (1, 1) (1, 1) "A", .insert (10, 10) (20, 20) "B"]) ∧
      (((PRTree.New (-180, -90) (180, 90) : PRTree ℤ String).run
          [.insert (1, 1) (1, 1) "A", .insert (10, 10) (20, 20) "B"]).Delete
            (1, 1) (1, 1) "A").Len + 1 =
        ((PRTree.New (-180, -90) (180, 90) : PRTree ℤ String).run
          [.insert (1, 1) (1, 1) "A", .insert (10, 10) (20, 20) "B"]).Len :=
  ⟨by decide,
    ((reachable_routing_invariant (-180, -90) (180, 90)
      [.insert (1, 1) (1, 1) "A", .insert (10, 10) (20, 20) "B"]).2.2.2
        (1, 1) (1, 1) "A" (by decide)).1⟩

end Reachable

/-! ## Tagged hierarchical traversal (Children) -/

section ChildrenLaws

variable {α δ : Type}

theorem retag_item (tag : Handle α δ → Handle α δ) (c : Child α δ) (h : c.Item = true) :
    retag tag c = c := by
  simp [retag, h]

theorem retag_inner (tag : Handle α δ → Handle α δ) (c : Child α δ) (h : c.Item = false) :
    retag tag c = { c with Data := tag c.Data } := by
  simp [retag, h]

theorem wrapLoop_append (tag : Handle α δ → Handle α δ) (post pre : List (Child α δ)) :
    wrapLoop tag post.length pre.length (pre ++ post) = pre ++ post.map (retag tag) := by
  induction post generalizing pre with
  | nil => simp [wrapLoop]
  | cons c cs ih =>
    have hget : (pre ++ c :: cs).get? pre.length = some c := by
      rw [List.get?_eq_getElem?, List.getElem?_append_right (le_refl _)]
      simp
    have hlen : (pre ++ [retag tag c]).length = pre.length + 1 := by simp
    have h1 := ih (pre ++ [retag tag c])
    rw [hlen, List.append_assoc, List.singleton_append, List.append_assoc,
      List.singleton_append] at h1
    simp only [List.length_cons, wrapLoop, hget, List.map_cons]
    by_cases hc : (!c.Item) = true
    · rw [if_pos hc]
      have hc2 : c.Item = false := by simpa using hc
      have hset : (pre ++ c :: cs).set pre.length { c with Data := tag c.Data } =
          pre ++ retag tag c :: cs := by
        rw [retag_inner tag c hc2]
        simp
      rw [hset, h1]
    · rw [if_neg hc]
      have hc2 : c.Item = true := by simpa using hc
      rw [retag_item tag c hc2] at h1 ⊢
      exact h1

theorem wrapLoop_all (tag : Handle α δ → Handle α δ) (cs : List (Child α δ)) :
    wrapLoop tag (cs.length - 0) 0 cs = cs.map (retag tag) := by
  have h := wrapLoop_append tag cs []
  simpa using h

theorem wrapLoop_from (tag : Handle α δ → Handle α δ) (pre post : List (Child α δ)) :
    wrapLoop tag ((pre ++ post).length - pre.length) pre.length (pre ++ post) =
      pre ++ post.map (retag tag) := by
  have h := wrapLoop_append tag post pre
  have hl : (pre ++ post).length - pre.length = post.length := by simp
  rw [hl]
  exact h

theorem Children_nil (tr : PRTree α δ) (pshape rshape : Shape α δ)
    (reuse : List (Child α δ)) :
    tr.Children pshape rshape .nil reuse =
      .ok (((pshape (tr.ptree.items.map asItem)).children .pnode).map (retag .pChildNode) ++
        ((rshape tr.rtree.items).children .rnode).map (retag .rChildNode)) := by
  simp only [PRTree.Children, PTree.Children, RTree.Children, List.take_zero, List.nil_append]
  rw [wrapLoop_all, wrapLoop_from]

theorem Children_pChildNode (tr : PRTree α δ) (pshape rshape : Shape α δ)
    (h : Handle α δ) (reuse : List (Child α δ)) :
    tr.Children pshape rshape (.pChildNode h) reuse =
      match tr.ptree.Children pshape h [] with
      | .error e => .error e
      | .ok cs => .ok (cs.map (retag .pChildNode)) := by
  simp only [PRTree.Children, List.take_zero]
  cases tr.ptree.Children pshape h [] with
  | error e => rfl
  | ok cs => simp only [wrapLoop_all]

theorem Children_rChildNode (tr : PRTree α δ) (pshape rshape : Shape α δ)
    (h : Handle α δ) (reuse : List (Child α δ)) :
    tr.Children pshape rshape (.rChildNode h) reuse =
      match tr.rtree.Children rshape h [] with
      | .error e => .error e
      | .ok cs => .ok (cs.map (retag .rChildNode)) := by
  simp only [PRTree.Children, List.take_zero]
  cases tr.rtree.Children rshape h [] with
  | error e => rfl
  | ok cs => simp only [wrapLoop_all]

theorem Forest_children_inner (mk : Forest α δ → Handle α δ) (f : Forest α δ) :
    ∀ c ∈ f.children mk, c.Item = false → ∃ kids, c.Data = mk kids := by
  induction f with
  | nil => intro c hc; simp [Forest.children] at hc
  | leaf min max data next ih =>
    intro c hc hi
    simp only [Forest.children, List.mem_cons] at hc
    rcases hc with hc | hc
    · rw [hc] at hi
      simp at hi
    · exact ih c hc hi
  | inner min max kids next _ ih =>
    intro c hc hi
    simp only [Forest.children, List.mem_cons] at hc
    rcases hc with hc | hc
    · exact ⟨kids, by rw [hc]⟩
    · exact ih c hc hi

theorem mem_map_retag_inner (tag : Handle α δ → Handle α δ) (f : Forest α δ)
    (mk0 : Forest α δ → Handle α δ) :
    ∀ c ∈ (f.children mk0).map (retag tag), c.Item = false → ∃ kids, c.Data = tag (mk0 kids) := by
  intro c hc hi
  obtain ⟨c0, hc0, hcc⟩ := List.mem_map.mp hc
  by_cases h0 : c0.Item = true
  · rw [retag_item tag c0 h0] at hcc
    rw [← hcc] at hi
    rw [h0] at hi
    exact absurd hi (by simp)
  · have h0f : c0.Item = false := by simpa using h0
    obtain ⟨kids, hk⟩ := Forest_children_inner mk0 f c0 hc0 h0f
    refine ⟨kids, ?_⟩
    rw [← hcc, retag_inner tag c0 h0f, ← hk]

/-- C12: `Children(nil, reuse)` returns the point sub-index's root children
followed by the rect sub-index's root children (its length is the sum of the
two).  Every descriptor with `Item == true` is passed through unchanged; every
descriptor with `Item == false` keeps `Min`, `Max` and `Item` and has its
`Data` wrapped with the tag of the sub-index it came from: the sub-index's own
node handle wrapped once in `pChildNode` for the point part, once in
`rChildNode` for the rect part. -/
theorem children_root (tr : PRTree α δ) (pshape rshape : Shape α δ)
    (reuse : List (Child α δ)) :
    ∃ pk rk : List (Child α δ),
      tr.ptree.Children pshape .nil [] = .ok pk ∧
        tr.rtree.Children rshape .nil [] = .ok rk ∧
        tr.Children pshape rshape .nil reuse =
          .ok (pk.map (retag .pChildNode) ++ rk.map (retag .rChildNode)) ∧
        (pk.map (retag .pChildNode) ++ rk.map (retag .rChildNode)).length =
          pk.length + rk.length ∧
        (∀ (tag : Handle α δ → Handle α δ) (c : Child α δ), c.Item = true → retag tag c = c) ∧
        (∀ (tag : Handle α δ → Handle α δ) (c : Child α δ), c.Item = false →
          retag tag c = { Min := c.Min, Max := c.Max, Data := tag c.Data, Item := c.Item }) ∧
        (∀ c ∈ pk.map (retag .pChildNode), c.Item = false →
          ∃ kids, c.Data = .pChildNode (.pnode kids)) ∧
        (∀ c ∈ rk.map (retag .rChildNode), c.Item = false →
          ∃ kids, c.Data = .rChildNode (.rnode kids)) := by
  refine ⟨(pshape (tr.ptree.items.map asItem)).children .pnode,
    (rshape tr.rtree.items).children .rnode, ?_, ?_, ?_, ?_, ?_, ?_, ?_, ?_⟩
  · simp [PTree.Children]
  · simp [RTree.Children]
  · exact Children_nil tr pshape rshape reuse
  · simp
  · exact fun tag c h => retag_item tag c h
  · exact fun tag c h => retag_inner tag c h
  · exact mem_map_retag_inner .pChildNode _ .pnode
  · exact mem_map_retag_inner .rChildNode _ .rnode

/-- C13: `Children(pChildNode{h}, reuse)` is the point sub-index's child
enumeration for the unwrapped `h`, with every non-item descriptor's `Data`
re-wrapped as `pChildNode` and every item descriptor unchanged; the rect
sub-index plays no part (any other rect index and layout give the same
result).  Symmetrically `Children(rChildNode{h}, reuse)` is the rect
sub-index's enumeration for `h` re-wrapped with `rChildNode`, whatever the
point sub-index holds. -/
theorem children_tagged (tr : PRTree α δ) (pshape rshape : Shape α δ)
    (h : Handle α δ) (reuse : List (Child α δ)) :
    (tr.Children pshape rshape (.pChildNode h) reuse =
        (match tr.ptree.Children pshape h [] with
          | .error e => .error e
          | .ok cs => .ok (cs.map (retag .pChildNode))) ∧
      ∀ (rt : RTree α δ) (rshape2 : Shape α δ),
        PRTree.Children { ptree := tr.ptree, rtree := rt } pshape rshape2 (.pChildNode h) reuse =
          tr.Children pshape rshape (.pChildNode h) reuse) ∧
      (tr.Children pshape rshape (.rChildNode h) reuse =
        (match tr.rtree.Children rshape h [] with
          | .error e => .error e
          | .ok cs => .ok (cs.map (retag .rChildNode))) ∧
      ∀ (pt : PTree α δ) (pshape2 : Shape α δ),
        PRTree.Children { ptree := pt, rtree := tr.rtree } pshape2 rshape (.rChildNode h) reuse =
          tr.Children pshape rshape (.rChildNode h) reuse) := by
  refine ⟨⟨Children_pChildNode tr pshape rshape h reuse, ?_⟩,
    ⟨Children_rChildNode tr pshape rshape h reuse, ?_⟩⟩
  · intro rt rshape2
    rw [Children_pChildNode, Children_pChildNode]
  · intro pt pshape2
    rw [Children_rChildNode, Children_rChildNode]

theorem Children_invalid_iff (tr : PRTree α δ) (pshape rshape : Shape α δ)
    (parent : Handle α δ) (reuse : List (Child α δ)) :
    tr.Children pshape rshape parent reuse = .error .invalidNodeType ↔
      (parent ≠ .nil ∧ (∀ h, parent ≠ .pChildNode h) ∧ ∀ h, parent ≠ .rChildNode h) := by
  cases parent with
  | nil => simp [Children_nil]
  | payload d => simp [PRTree.Children]
  | pnode k => simp [PRTree.Children]
  | rnode k => simp [PRTree.Children]
  | pChildNode h =>
    rw [Children_pChildNode]
    cases h <;> simp [PTree.Children]
  | rChildNode h =>
    rw [Children_rChildNode]
    cases h <;> simp [RTree.Children]

/-- Counterexample to C14 as stated: the parent `pChildNode{"A"}` has one of the
three valid handle shapes, yet `Children` fails on it: the source forwards the
unwrapped `"A"` to the point sub-index, which refuses it, and no list is
returned.  The same happens for a `pChildNode` wrapping a node of the rect
sub-index. -/
theorem children_tagged_foreign_fails :
    (∃ h, (Handle.pChildNode (.payload "A") : Handle ℤ String) = .pChildNode h) ∧
      world2.Children nestedShape nestedShape (.pChildNode (.payload "A")) [] =
        .error .foreignHandle ∧
      (∀ cs, world2.Children nestedShape nestedShape (.pChildNode (.payload "A")) [] ≠
        .ok cs) ∧
      world2.Children nestedShape nestedShape (.pChildNode (.rnode .nil)) [] =
        .error .foreignHandle :=
  ⟨⟨_, rfl⟩, rfl, fun cs h => by simp [PRTree.Children, PTree.Children] at h, rfl⟩

/-- C14 (amended): `Children` ends in the fatal `invalid node type` exactly
when the parent handle is neither nil nor a `pChildNode` nor an `rChildNode`;
it then returns no list at all.  For nil it always returns a list.  For a
tagged handle it never ends in `invalid node type`, and it returns a list
exactly when the sub-index the tag names accepts the unwrapped handle, in
particular whenever the handle wraps a node of that sub-index. -/
theorem children_invalid_node_type (tr : PRTree α δ) (pshape rshape : Shape α δ)
    (parent : Handle α δ) (reuse : List (Child α δ)) :
    (tr.Children pshape rshape parent reuse = .error .invalidNodeType ↔
        (parent ≠ .nil ∧ (∀ h, parent ≠ .pChildNode h) ∧ ∀ h, parent ≠ .rChildNode h)) ∧
      ((parent ≠ .nil ∧ (∀ h, parent ≠ .pChildNode h) ∧ ∀ h, parent ≠ .rChildNode h) →
        ∀ cs, tr.Children pshape rshape parent reuse ≠ .ok cs) ∧
      (∃ cs, tr.Children pshape rshape .nil reuse = .ok cs) ∧
      (∀ kids, ∃ cs, tr.Children pshape rshape (.pChildNode (.pnode kids)) reuse = .ok cs) ∧
      (∀ kids, ∃ cs, tr.Children pshape rshape (.rChildNode (.rnode kids)) reuse = .ok cs) ∧
      (∀ h, tr.Children pshape rshape (.pChildNode h) reuse ≠ .error .invalidNodeType) ∧
      (∀ h, tr.Children pshape rshape (.rChildNode h) reuse ≠ .error .invalidNodeType) ∧
      (∀ h, (∃ cs, tr.Children pshape rshape (.pChildNode h) reuse = .ok cs) ↔
        ∃ cs, tr.ptree.Children pshape h [] = .ok cs) ∧
      (∀ h, (∃ cs, tr.Children pshape rshape (.rChildNode h) reuse = .ok cs) ↔
        ∃ cs, tr.rtree.Children rshape h [] = .ok cs) := by
  have hiff := Children_invalid_iff tr pshape rshape
  refine ⟨hiff parent reuse, ?_, ?_, ?_, ?_, ?_, ?_, ?_, ?_⟩
  · intro hbad cs hcs
    rw [(hiff parent reuse).mpr hbad] at hcs
    exact absurd hcs (by simp)
  · exact ⟨_, Children_nil tr pshape rshape reuse⟩
  · intro kids
    rw [Children_pChildNode]
    exact ⟨_, rfl⟩
  · intro kids
    rw [Children_rChildNode]
    exact ⟨_, rfl⟩
  · intro h hbad
    exact ((hiff (.pChildNode h) reuse).mp hbad).2.1 h rfl
  · intro h hbad
    exact ((hiff (.rChildNode h) reuse).mp hbad).2.2 h rfl
  · intro h
    rw [Children_pChildNode]
    cases tr.ptree.Children pshape h [] with
    | error e => simp
    | ok cs => simp
  · intro h
    rw [Children_rChildNode]
    cases tr.rtree.Children rshape h [] with
    | error e => simp
    | ok cs => simp

/-- Witness for the amended C14: a payload passed as parent handle is an
invalid node type. -/
theorem children_invalid_node_type_witness :
    ((Handle.payload "A" : Handle ℤ String) ≠ .nil ∧
        (∀ h, (Handle.payload "A" : Handle ℤ String) ≠ .pChildNode h) ∧
        ∀ h, (Handle.payload "A" : Handle ℤ String) ≠ .rChildNode h) ∧
      world2.Children nestedShape nestedShape (.payload "A") [] = .error .invalidNodeType ∧
      ∀ cs, world2.Children nestedShape nestedShape (.payload "A") [] ≠ .ok cs :=
  ⟨⟨by simp, by simp, by simp⟩, rfl,
    (children_invalid_node_type world2 nestedShape nestedShape (.payload "A") []).2.1
      ⟨by simp, by simp, by simp⟩⟩

theorem Children_reuse_irrelevant (tr : PRTree α δ) (pshape rshape : Shape α δ)
    (parent : Handle α δ) (r1 r2 : List (Child α δ)) :
    tr.Children pshape rshape parent r1 = tr.Children pshape rshape parent r2 := by
  cases parent with
  | nil => rw [Children_nil, Children_nil]
  | payload d => rfl
  | pnode k => rfl
  | rnode k => rfl
  | pChildNode h => rw [Children_pChildNode, Children_pChildNode]
  | rChildNode h => rw [Children_rChildNode, Children_rChildNode]

/-- C18: for every parent handle and every two reuse buffers, of any length and
contents, `Children` returns the same outcome, in particular equal descriptor
sequences: the buffer is cut to length zero (`reuse[:0]`) before anything is
appended, so the outcome is that for the empty buffer. -/
theorem children_reuse_independent (tr : PRTree α δ) (pshape rshape : Shape α δ)
    (parent : Handle α δ) (r1 r2 : List (Child α δ)) :
    tr.Children pshape rshape parent r1 = tr.Children pshape rshape parent r2 ∧
      tr.Children pshape rshape parent r1 = tr.Children pshape rshape parent (r1.take 0) ∧
      tr.Children pshape rshape parent r1 = tr.Children pshape rshape parent [] :=
  ⟨Children_reuse_irrelevant tr pshape rshape parent r1 r2,
    Children_reuse_irrelevant tr pshape rshape parent r1 _,
    Children_reuse_irrelevant tr pshape rshape parent r1 []⟩

theorem Children_ok_inner (tr : PRTree α δ) (pshape rshape : Shape α δ)
    (parent : Handle α δ) (reuse cs : List (Child α δ))
    (hok : tr.Children pshape rshape parent reuse = .ok cs) :
    ∀ c ∈ cs, c.Item = false →
      (∃ kids, c.Data = .pChildNode (.pnode kids)) ∨
        ∃ kids, c.Data = .rChildNode (.rnode kids) := by
  intro c hc hi
  cases parent with
  | nil =>
    rw [Children_nil] at hok
    injection hok with hok
    rw [← hok, List.mem_append] at hc
    rcases hc with hc | hc
    · exact Or.inl (mem_map_retag_inner .pChildNode _ .pnode c hc hi)
    · exact Or.inr (mem_map_retag_inner .rChildNode _ .rnode c hc hi)
  | payload d => simp [PRTree.Children] at hok
  | pnode k => simp [PRTree.Children] at hok
  | rnode k => simp [PRTree.Children] at hok
  | pChildNode h =>
    rw [Children_pChildNode] at hok
    cases h with
    | nil =>
      simp only [PTree.Children, List.nil_append] at hok
      injection hok with hok
      rw [← hok] at hc
      exact Or.inl (mem_map_retag_inner .pChildNode _ .pnode c hc hi)
    | pnode k =>
      simp only [PTree.Children, List.nil_append] at hok
      injection hok with hok
      rw [← hok] at hc
      exact Or.inl (mem_map_retag_inner .pChildNode _ .pnode c hc hi)
    | payload d => simp [PTree.Children] at hok
    | rnode k => simp [PTree.Children] at hok
    | pChildNode h => simp [PTree.Children] at hok
    | rChildNode h => simp [PTree.Children] at hok
  | rChildNode h =>
    rw [Children_rChildNode] at hok
    cases h with
    | nil =>
      simp only [RTree.Children, List.nil_append] at hok
      injection hok with hok
      rw [← hok] at hc
      exact Or.inr (mem_map_retag_inner .rChildNode _ .rnode c hc hi)
    | rnode k =>
      simp only [RTree.Children, List.nil_append] at hok
      injection hok with hok
      rw [← hok] at hc
      exact Or.inr (mem_map_retag_inner .rChildNode _ .rnode c hc hi)
    | payload d => simp [RTree.Children] at hok
    | pnode k => simp [RTree.Children] at hok
    | pChildNode h => simp [RTree.Children] at hok
    | rChildNode h => simp [RTree.Children] at hok

/-- C20: every descriptor with `Item == false` returned by a successful call of
`Children`, for any parent handle, carries `Data` that is a `pChildNode` or an
`rChildNode` (wrapping a node of the sub-index the tag names).  Passing that
`Data` back to `Children` therefore never ends in `invalid node type`; it
returns a list again, so the same holds at every depth of a traversal. -/
theorem children_handle_closure (tr : PRTree α δ) (pshape rshape : Shape α δ)
    (parent : Handle α δ) (reuse cs : List (Child α δ))
    (hok : tr.Children pshape rshape parent reuse = .ok cs) :
    ∀ c ∈ cs, c.Item = false →
      ((∃ h, c.Data = .pChildNode h) ∨ ∃ h, c.Data = .rChildNode h) ∧
        ∀ reuse2 : List (Child α δ),
          tr.Children pshape rshape c.Data reuse2 ≠ .error .invalidNodeType ∧
            ∃ cs2, tr.Children pshape rshape c.Data reuse2 = .ok cs2 := by
  intro c hc hi
  rcases Children_ok_inner tr pshape rshape parent reuse cs hok c hc hi with ⟨k, hk⟩ | ⟨k, hk⟩
  · refine ⟨Or.inl ⟨_, hk⟩, fun reuse2 => ?_⟩
    rw [hk, Children_pChildNode]
    exact ⟨by simp [PTree.Children], _, rfl⟩
  · refine ⟨Or.inr ⟨_, hk⟩, fun reuse2 => ?_⟩
    rw [hk, Children_rChildNode]
    exact ⟨by simp [RTree.Children], _, rfl⟩

/-- Witness for C20 (scenario 2, both sub-indexes laid out with an internal
root node): `Children(nil)` returns two internal-node descriptors, and each can
be passed back to `Children`. -/
theorem children_handle_closure_witness :
    ∃ cs, world2.Children nestedShape nestedShape .nil [] = .ok cs ∧ cs.length = 2 ∧
      ∀ c ∈ cs, c.Item = false →
        ((∃ h, c.Data = .pChildNode h) ∨ ∃ h, c.Data = .rChildNode h) ∧
          ∀ reuse2 : List (Child ℤ String),
            world2.Children nestedShape nestedShape c.Data reuse2 ≠ .error .invalidNodeType ∧
              ∃ cs2, world2.Children nestedShape nestedShape c.Data reuse2 = .ok cs2 :=
  ⟨_, rfl, rfl, children_handle_closure world2 nestedShape nestedShape .nil [] _ rfl⟩

end ChildrenLaws

/-! ## Traversal soundness -/

section Traversal

variable {α δ : Type}

theorem collect_append {β γ ε : Type} (f : β → Except ε (List γ)) (l₁ l₂ : List β)
    (a b : List γ) (h1 : collect f l₁ = .ok a) (h2 : collect f l₂ = .ok b) :
    collect f (l₁ ++ l₂) = .ok (a ++ b) := by
  induction l₁ generalizing a with
  | nil =>
    simp only [collect] at h1
    injection h1 with h1
    rw [← h1]
    simpa using h2
  | cons x xs ih =>
    simp only [collect, List.cons_append] at h1 ⊢
    cases hx : f x with
    | error e => rw [hx] at h1; simp at h1
    | ok u =>
      rw [hx] at h1
      simp only at h1 ⊢
      cases hxs : collect f xs with
      | error e => rw [hxs] at h1; simp at h1
      | ok v =>
        rw [hxs] at h1
        simp only at h1
        injection h1 with h1
        rw [show xs.append l₂ = xs ++ l₂ from rfl, ih v hxs]
        simp only
        rw [← h1, List.append_assoc]

theorem traverse_succ (tr : PRTree α δ) (pshape rshape : Shape α δ) (fuel : Nat)
    (parent : Handle α δ) (cs : List (Child α δ))
    (h : tr.Children pshape rshape parent [] = .ok cs) :
    traverse tr pshape rshape (fuel + 1) parent =
      collect (fun c => if c.Item then .ok [c] else traverse tr pshape rshape fuel c.Data) cs := by
  simp only [traverse, h]

theorem traverse_subforest (tr : PRTree α δ) (pshape rshape : Shape α δ)
    (mk : Forest α δ → Handle α δ) (tag : Handle α δ → Handle α δ)
    (hstep : ∀ kids, tr.Children pshape rshape (tag (mk kids)) [] =
      .ok ((kids.children mk).map (retag tag))) :
    ∀ (n : Nat) (f : Forest α δ), f.depth ≤ n →
      collect (fun c => if c.Item then .ok [c] else traverse tr pshape rshape n c.Data)
        ((f.children mk).map (retag tag)) = .ok (f.leaves.map leafChild) := by
  intro n
  induction n with
  | zero =>
    intro f
    induction f with
    | nil => intro _; rfl
    | leaf min max data next ih =>
      intro hd
      have hnext := ih hd
      simp only [Forest.children, Forest.leaves, List.map_cons, collect, retag, if_true, hnext]
      rfl
    | inner min max kids next _ _ =>
      intro hd
      simp only [Forest.depth] at hd
      have : kids.depth + 1 ≤ 0 := le_trans (Nat.le_max_left _ _) hd
      omega
  | succ m ihm =>
    intro f
    induction f with
    | nil => intro _; rfl
    | leaf min max data next ih =>
      intro hd
      have hnext := ih hd
      simp only [Forest.children, Forest.leaves, List.map_cons, collect, retag, if_true, hnext]
      rfl
    | inner min max kids next _ ih =>
      intro hd
      simp only [Forest.depth] at hd
      have hk : kids.depth ≤ m := by
        have : kids.depth + 1 ≤ m + 1 := le_trans (Nat.le_max_left _ _) hd
        omega
      have hn : next.depth ≤ m + 1 := le_trans (Nat.le_max_right _ _) hd
      have hnext := ih hn
      have hkids := ihm kids hk
      have hvisit : traverse tr pshape rshape (m + 1) (tag (mk kids)) =
          .ok (kids.leaves.map leafChild) := by
        rw [traverse_succ tr pshape rshape m _ _ (hstep kids)]
        exact hkids
      simp only [Forest.children, Forest.leaves, List.map_cons, collect, retag,
        Bool.false_eq_true, if_false, hvisit, hnext, List.map_append]

theorem traverse_root (tr : PRTree α δ) (pshape rshape : Shape α δ) (n : Nat)
    (hp : (pshape (tr.ptree.items.map asItem)).depth ≤ n)
    (hr : (rshape tr.rtree.items).depth ≤ n) :
    traverse tr pshape rshape (n + 1) .nil =
      .ok ((pshape (tr.ptree.items.map asItem)).leaves.map leafChild ++
        (rshape tr.rtree.items).leaves.map leafChild) := by
  rw [traverse_succ tr pshape rshape n _ _ (Children_nil tr pshape rshape [])]
  apply collect_append
  · apply traverse_subforest tr pshape rshape .pnode .pChildNode _ n _ hp
    intro kids
    rw [Children_pChildNode]
    rfl
  · apply traverse_subforest tr pshape rshape .rnode .rChildNode _ n _ hr
    intro kids
    rw [Children_rChildNode]
    rfl

theorem flatShape_leaves (l : List (Item α δ)) : (flatShape l).leaves = l := by
  induction l with
  | nil => rfl
  | cons e es ih => simp [flatShape, Forest.leaves, ih]

theorem nestedShape_leaves (l : List (Item α δ)) : (nestedShape l).leaves = l := by
  cases l with
  | nil => rfl
  | cons e es => simp [nestedShape, Forest.leaves, flatShape_leaves]

theorem traverse_of_fuel (tr : PRTree α δ) (pshape rshape : Shape α δ) (n : Nat)
    (hn : Nat.max (pshape (tr.ptree.items.map asItem)).depth (rshape tr.rtree.items).depth + 1
      ≤ n) :
    traverse tr pshape rshape n .nil =
      .ok ((pshape (tr.ptree.items.map asItem)).leaves.map leafChild ++
        (rshape tr.rtree.items).leaves.map leafChild) := by
  obtain ⟨m, hm⟩ : ∃ m, n = m + 1 := ⟨n - 1, by omega⟩
  subst hm
  have hm : Nat.max (pshape (tr.ptree.items.map asItem)).depth (rshape tr.rtree.items).depth
      ≤ m := by omega
  apply traverse_root
  · exact le_trans (Nat.le_max_left _ _) hm
  · exact le_trans (Nat.le_max_right _ _) hm

/-- C15: let `tr` be reached from `New` by any sequence of `Insert`, `Delete`
and `Replace`, and let each sub-index hold its items in a finite forest whose
leaves are exactly its stored items.  Then the traversal that calls
`Children(nil)` and recursively `Children` on every descriptor with
`Item == false` terminates (it returns a result for every recursion budget
above a bound), it never fails, it visits every leaf item exactly once (the
visited descriptors are item descriptors and a permutation of the stored
items), and the multiset of visited payloads is that of the items inserted and
not deleted. -/
theorem traversal_sound [LinearOrder α] [DecidableEq δ] (dmin dmax : Point α)
    (ops : List (Op α δ)) (tr : PRTree α δ) (pshape rshape : Shape α δ)
    (htr : tr = (PRTree.New dmin dmax).run ops)
    (hp : List.Perm (pshape (tr.ptree.items.map asItem)).leaves (tr.ptree.items.map asItem))
    (hr : List.Perm (rshape tr.rtree.items).leaves tr.rtree.items) :
    ∃ fuel, ∀ n, fuel ≤ n →
      ∃ visited, traverse tr pshape rshape n .nil = .ok visited ∧
        (∀ c ∈ visited, c.Item = true) ∧
        List.Perm visited
          ((tr.ptree.items.map (fun e => (e.1, e.1, e.2)) ++ tr.rtree.items).map leafChild) ∧
        List.Perm (visited.map (fun c => c.Data))
          ((live [] ops).map (fun e => Handle.payload e.2.2)) := by
  refine ⟨Nat.max (pshape (tr.ptree.items.map asItem)).depth (rshape tr.rtree.items).depth + 1,
    fun n hn => ⟨_, traverse_of_fuel tr pshape rshape n hn, ?_, ?_, ?_⟩⟩
  · intro c hc
    rw [← List.map_append, List.mem_map] at hc
    obtain ⟨e, _, he⟩ := hc
    rw [← he]
    rfl
  · rw [← List.map_append]
    exact (hp.append hr).map leafChild
  · have h1 : List.Perm
        ((pshape (tr.ptree.items.map asItem)).leaves ++ (rshape tr.rtree.items).leaves)
        (stored tr) := hp.append hr
    have h2 : List.Perm (stored tr) (live [] ops) := by
      rw [htr]
      exact stored_run_perm ops (PRTree.New dmin dmax) (routed_New dmin dmax)
    have h3 := (h1.trans h2).map (fun e : Item α δ => Handle.payload (α := α) e.2.2)
    rw [← List.map_append, List.map_map]
    exact h3

/-- Witness for C15: after inserting the point "A", the rect "B" and the point
(2,3) "C" and deleting "A", with both sub-indexes laid out with internal
nodes, the traversal returns the leaf items "C" and "B", each once, for every
recursion budget from 4 on. -/
theorem traversal_sound_witness :
    List.Perm
        (nestedShape (((PRTree.New (-180, -90) (180, 90) : PRTree ℤ String).run
          [.insert (1, 1) (1, 1) "A", .insert (10, 10) (20, 20) "B",
            .insert (2, 3) (2, 3) "C", .delete (1, 1) (1, 1) "A"]).ptree.items.map asItem)).leaves
        (((PRTree.New (-180, -90) (180, 90) : PRTree ℤ String).run
          [.insert (1, 1) (1, 1) "A", .insert (10, 10) (20, 20) "B",
            .insert (2, 3) (2, 3) "C", .delete (1, 1) (1, 1) "A"]).ptree.items.map asItem) ∧
      traverse ((PRTree.New (-180, -90) (180, 90) : PRTree ℤ String).run
          [.insert (1, 1) (1, 1) "A", .insert (10, 10) (20, 20) "B",
            .insert (2, 3) (2, 3) "C", .delete (1, 1) (1, 1) "A"])
        nestedShape nestedShape 4 .nil =
          .ok [⟨(2, 3), (2, 3), .payload "C", true⟩, ⟨(10, 10), (20, 20), .payload "B", true⟩] ∧
      traverse ((PRTree.New (-180, -90) (180, 90) : PRTree ℤ String).run
          [.insert (1, 1) (1, 1) "A", .insert (10, 10) (20, 20) "B",
            .insert (2, 3) (2, 3) "C", .delete (1, 1) (1, 1) "A"])
        nestedShape nestedShape 2 .nil = .error .outOfFuel ∧
      ∃ fuel, ∀ n, fuel ≤ n →
        ∃ visited,
          traverse ((PRTree.New (-180, -90) (180, 90) : PRTree ℤ String).run
              [.insert (1, 1) (1, 1) "A", .insert (10, 10) (20, 20) "B",
                .insert (2, 3) (2, 3) "C", .delete (1, 1) (1, 1) "A"])
            nestedShape nestedShape n .nil = .ok visited ∧
          (∀ c ∈ visited, c.Item = true) ∧
          List.Perm visited
            ((((PRTree.New (-180, -90) (180, 90) : PRTree ℤ String).run
              [.insert (1, 1) (1, 1) "A", .insert (10, 10) (20, 20) "B",
                .insert (2, 3) (2, 3) "C", .delete (1, 1) (1, 1) "A"]).ptree.items.map
                  (fun e => (e.1, e.1, e.2)) ++
              ((PRTree.New (-180, -90) (180, 90) : PRTree ℤ String).run
              [.insert (1, 1) (1, 1) "A", .insert (10, 10) (20, 20) "B",
                .insert (2, 3) (2, 3) "C", .delete (1, 1) (1, 1) "A"]).rtree.items).map
                  leafChild) ∧
          List.Perm (visited.map (fun c => c.Data))
            ((live []
              [Op.insert ((1, 1) : Point ℤ) (1, 1) "A", .insert (10, 10) (20, 20) "B",
                .insert (2, 3) (2, 3) "C", .delete (1, 1) (1, 1) "A"]).map
              (fun e => Handle.payload e.2.2)) :=
  ⟨List.Perm.of_eq (nestedShape_leaves _), rfl, rfl,
    traversal_sound (-180, -90) (180, 90)
      [.insert (1, 1) (1, 1) "A", .insert (10, 10) (20, 20) "B",
        .insert (2, 3) (2, 3) "C", .delete (1, 1) (1, 1) "A"] _ nestedShape nestedShape rfl
      (List.Perm.of_eq (nestedShape_leaves _)) (List.Perm.of_eq (nestedShape_leaves _))⟩

end Traversal

end prtree
